import Mathlib

/-!
Verification of the `sentinel_list` crate (src/lib.rs): a circular
doubly-linked list with a sentinel node; insertion returns a handle that
removes its element in O(1).

Shallow embedding: raw pointers become natural-number addresses into a
heap `mem : Nat → Link T`; the set of currently allocated nodes is the
list `dom`; `fresh` models the allocator (every allocation returns a
previously unused address).  Each Rust statement that reads or writes
through a pointer becomes one read of / update to `mem`, in the same
order as the source.
-/

namespace SentinelList

/-- Mirrors `struct Link<T> { next: *mut Link<T>, prev: *mut Link<T>, value: Option<T> }`.
Pointers are modelled as `Nat` addresses. -/
structure Link (T : Type) where
  next : Nat
  prev : Nat
  value : Option T
deriving DecidableEq

/-- The program state: the heap of allocated `Link` cells (`mem`, with
allocated addresses listed in `dom`), the address of the list's sentinel
node, and the next fresh address the allocator will hand out. -/
structure State (T : Type) where
  mem : Nat → Link T
  dom : List Nat
  sentinel : Nat
  fresh : Nat

/-- Writing one heap cell (one store through a pointer). -/
def State.set (s : State T) (a : Nat) (l : Link T) : State T :=
  { s with mem := fun b => if b = a then l else s.mem b }

/-- Mirrors `Link::new(v)`: a fresh cell holding `Some v`; the source
initialises `prev`/`next` with null pointers (modelled as address `0`;
they are overwritten by `insert_after` before ever being read). -/
def Link.new (v : T) : Link T :=
  { prev := 0, next := 0, value := some v }

/-- Mirrors `Handle::new(v)` = `Box::into_raw(Box::new(Link::new(v)))`:
allocates a fresh cell and returns its address (the handle). -/
def Handle.new (s : State T) (v : T) : State T × Nat :=
  let a := s.fresh
  ({ mem := fun b => if b = a then Link.new v else s.mem b,
     dom := a :: s.dom, sentinel := s.sentinel, fresh := a + 1 }, a)

/-- Mirrors `List::new()` / `Handle::new_sentinel()`: the initial state
holds exactly the sentinel cell, self-linked, with no value.  The
sentinel is allocated at address `0`. -/
def List.new : State T :=
  { mem := fun _ => { prev := 0, next := 0, value := none },
    dom := [0], sentinel := 0, fresh := 1 }

/-- Mirrors `fn insert_after<T>(after: &mut Link<T>, h: &mut Link<T>)`
(src/lib.rs lines 280-291), with every pointer read/write performed in
source order on the heap. -/
def insert_after (s : State T) (after h : Nat) : State T :=
  let n := (s.mem after).next
  let s1 := s.set h { s.mem h with prev := after }
  let s2 := s1.set h { s1.mem h with next := n }
  let s3 := s2.set after { s2.mem after with next := h }
  let m := (s3.mem h).next
  s3.set m { s3.mem m with prev := h }

/-- Mirrors `Link::unlink(&mut self)` (src/lib.rs lines 176-182):
`next.prev = prev; prev.next = next;` — the node's own fields are left
untouched. -/
def Link.unlink (s : State T) (a : Nat) : State T :=
  let prev := (s.mem a).prev
  let next := (s.mem a).next
  let s1 := s.set next { s.mem next with prev := prev }
  s1.set prev { s1.mem prev with next := next }

/-- Mirrors `List::push_head(&mut self, e)` — insert right after the
sentinel; returns the new state and the handle (node address). -/
def push_head (s : State T) (v : T) : State T × Nat :=
  let p := Handle.new s v
  (insert_after p.1 p.1.sentinel p.2, p.2)

/-- Mirrors `List::push_tail(&mut self, e)` — insert right after
`sentinel.prev`; returns the new state and the handle. -/
def push_tail (s : State T) (v : T) : State T × Nat :=
  let p := Handle.new s v
  (insert_after p.1 ((p.1.mem p.1.sentinel).prev) p.2, p.2)

/-- Mirrors `List::peek_head`: `(&*self.sentinel.next).value.as_ref()`. -/
def peek_head (s : State T) : Option T :=
  (s.mem ((s.mem s.sentinel).next)).value

/-- Mirrors `List::peek_head_mut` (same read; the returned reference is
modelled by its target value). -/
def peek_head_mut (s : State T) : Option T :=
  (s.mem ((s.mem s.sentinel).next)).value

/-- Mirrors `List::peek_tail`: `(&*self.sentinel.prev).value.as_ref()`. -/
def peek_tail (s : State T) : Option T :=
  (s.mem ((s.mem s.sentinel).prev)).value

/-- Mirrors `List::peek_tail_mut`. -/
def peek_tail_mut (s : State T) : Option T :=
  (s.mem ((s.mem s.sentinel).prev)).value

/-- Mirrors deallocation of the `Box` behind a handle (`Box::from_raw`
followed by `drop`): the address leaves the allocated set. -/
def Handle.free (s : State T) (a : Nat) : State T :=
  { s with dom := s.dom.erase a }

/-- Mirrors `impl Drop for Handle` (src/lib.rs lines 222-235):
`link.unlink()` followed by freeing the box. -/
def Handle.drop (s : State T) (a : Nat) : State T :=
  Handle.free (Link.unlink s a) a

/-- Mirrors `Handle::into_inner(self)` (src/lib.rs lines 206-212):
`link.unlink(); link.value.take()`, after which the consumed handle `h`
goes out of scope, so `Drop for Handle` runs on the same node (a second
`Link::unlink`, then the box is freed). -/
def Handle.into_inner (s : State T) (a : Nat) : State T × Option T :=
  let s1 := Link.unlink s a
  let v := (s1.mem a).value
  let s2 := s1.set a { s1.mem a with value := none }
  (Handle.drop s2 a, v)

/-- Mirrors `ListHandle::unlink(self)` for `Handle` (src/lib.rs lines
239-244): `self.into_inner().unwrap()`; the result `some v` models a
successful unwrap. -/
def ListHandle.unlink (s : State T) (a : Nat) : Prod (State T) (Option T) :=
  Handle.into_inner s a

/-- Mirrors `ListHandle::as_ref(&self)` for `Handle`: reads the stored
value through the handle (deref + `value.as_ref().unwrap()`; modelled as
the `Option` it reads). -/
def ListHandle.as_ref (s : State T) (a : Nat) : Option T :=
  (s.mem a).value

/-- Dropping the `List` itself: its only field is the sentinel `Handle`,
so `Drop for Handle` runs on the sentinel node. -/
def dropList (s : State T) : State T :=
  Handle.drop s s.sentinel

/-- Mirrors `List::iter`: the iterator starts at `sentinel.next`. -/
def List.iter (s : State T) : Nat :=
  (s.mem s.sentinel).next

/-- Mirrors `Iterator::next for Iter` (src/lib.rs lines 134-145): yield
the value at the current position and advance, or yield nothing and stay
put when the current node (the sentinel) has no value. -/
def Iter.next (s : State T) (it : Nat) : Option T × Nat :=
  match (s.mem it).value with
  | some v => (some v, (s.mem it).next)
  | none => (none, it)

/-- Mirrors `List::iter_mut`: the iterator starts at
`Some(sentinel.next)`. -/
def List.iter_mut (s : State T) : Option Nat :=
  some ((s.mem s.sentinel).next)

/-- Mirrors `Iterator::next for IterMut` (src/lib.rs lines 147-160): the
iterator advances to `link.next` before testing `link.value`; it yields
the address of the node whose value the caller may mutate (`None` when
the current node is the sentinel). -/
def IterMut.next (s : State T) (it : Option Nat) : Option Nat × Option Nat :=
  match it with
  | none => (none, none)
  | some a =>
    let it2 := some ((s.mem a).next)
    match (s.mem a).value with
    | some _ => (some a, it2)
    | none => (none, it2)

/-- Repeatedly calling `Iter::next`, collecting the yielded values
(`fuel` bounds the number of calls). -/
def iterCollect (s : State T) : Nat → Nat → List T
  | _, 0 => []
  | it, Nat.succ fuel =>
    match (s.mem it).value with
    | some v => v :: iterCollect s ((s.mem it).next) fuel
    | none => []

/-- One full traversal of the list with `Iter` (fuel `dom.length`
suffices to reach the sentinel again). -/
def List.iterToList (s : State T) : List T :=
  iterCollect s (List.iter s) s.dom.length

/-- The position of an `Iter` after `k` further calls to `next`. -/
def Iter.advanceN (s : State T) (it : Nat) : Nat → Nat
  | 0 => it
  | Nat.succ k => Iter.advanceN s (Iter.next s it).2 k

/-- Mirrors `l.iter_mut().fold(i0, |i, v| { *v = i; i - 1 })` from the
source's `iter_mut_test`: walk the mutable iterator, storing the
counter into each yielded element and decrementing it. -/
def iterMutAssign (s : State Nat) : Option Nat → Nat → Nat → State Nat
  | _, _, 0 => s
  | it, i, Nat.succ fuel =>
    match IterMut.next s it with
    | (none, _) => s
    | (some a, it2) => iterMutAssign (s.set a { s.mem a with value := some i }) it2 (i - 1) fuel

/-- The public operations a caller can perform on a list and its
handles: `push_head`, `push_tail`, explicit `Handle` unlink, and
dropping a `Handle`.  Unlink/drop name the node address held by the
handle. -/
inductive Op (T : Type) where
  | pushHead : T → Op T
  | pushTail : T → Op T
  | unlinkOp : Nat → Op T
  | dropOp : Nat → Op T

/-- One public operation.  An unlink or drop is only executable through
a live handle, i.e. on an allocated non-sentinel node (Rust's ownership
discipline: each handle is consumed exactly once and only handles to
non-sentinel nodes are ever exposed); other instructions do nothing. -/
def step (s : State T) : Op T → State T
  | .pushHead v => (push_head s v).1
  | .pushTail v => (push_tail s v).1
  | .unlinkOp a => if a ∈ s.dom ∧ a ≠ s.sentinel then (ListHandle.unlink s a).1 else s
  | .dropOp a => if a ∈ s.dom ∧ a ≠ s.sentinel then Handle.drop s a else s

/-- Running a sequence of public operations. -/
def run (s : State T) : List (Op T) → State T
  | [] => s
  | op :: ops => run (step s op) ops

/-- Adjacency in the ring: `a`'s successor is `b` and `b`'s predecessor
is `a`. -/
def linkOK (s : State T) (a b : Nat) : Prop :=
  (s.mem a).next = b ∧ (s.mem b).prev = a

instance (s : State T) : DecidableRel (linkOK s) := fun _ _ =>
  inferInstanceAs (Decidable (And _ _))

/-- The allocated nodes form one ring: starting from the sentinel, the
nodes of `L` follow in successor order and close back at the sentinel. -/
def Ring (s : State T) (L : List Nat) : Prop :=
  List.Chain' (linkOK s) (s.sentinel :: L ++ [s.sentinel])

/-- The ring invariant exactly as the specification states it: every
allocated node's successor points back to it, and its predecessor points
forward to it. -/
def RingInv (s : State T) : Prop :=
  ∀ a ∈ s.dom, (s.mem ((s.mem a).next)).prev = a ∧ (s.mem ((s.mem a).prev)).next = a

/-- Full well-formedness of a list state with ring order `L` (the
non-sentinel nodes in successor order): the ring is closed, addresses
are distinct, the allocated set is exactly the sentinel plus `L`, every
non-sentinel node holds a value, the sentinel holds none, and all
allocated addresses are below the allocation counter. -/
def Inv (s : State T) (L : List Nat) : Prop :=
  Ring s L ∧
  (s.sentinel :: L).Nodup ∧
  s.dom.Perm (s.sentinel :: L) ∧
  (∀ a ∈ L, (s.mem a).value.isSome) ∧
  (s.mem s.sentinel).value = none ∧
  (∀ a ∈ s.dom, a < s.fresh)

/-- Observable equality of two list states: same sentinel, same
allocated addresses, same allocation counter, and identical cell
contents at every allocated address. -/
def ObsEq (s1 s2 : State T) : Prop :=
  s1.sentinel = s2.sentinel ∧ s1.dom = s2.dom ∧ s1.fresh = s2.fresh ∧
  ∀ a ∈ s1.dom, s1.mem a = s2.mem a

/-- Executable check of ring adjacency along a list of addresses. -/
def chainOKb (s : State T) : List Nat → Bool
  | [] => true
  | [_] => true
  | a :: b :: l =>
    decide ((s.mem a).next = b) && decide ((s.mem b).prev = a) && chainOKb s (b :: l)

theorem chainOKb_iff (s : State T) :
    ∀ l : List Nat, chainOKb s l = true ↔ List.Chain' (linkOK s) l
  | [] => by simp [chainOKb]
  | [a] => by simp [chainOKb, List.chain'_singleton]
  | a :: b :: l => by
    rw [List.chain'_cons]
    show (_ && _ && chainOKb s (b :: l)) = true ↔ _
    rw [Bool.and_eq_true, Bool.and_eq_true]
    rw [chainOKb_iff s (b :: l)]
    simp [linkOK, and_assoc]

instance [DecidableEq T] (s : State T) (L : List Nat) : Decidable (Inv s L) :=
  decidable_of_iff
    (chainOKb s (s.sentinel :: L ++ [s.sentinel]) = true ∧
      (s.sentinel :: L).Nodup ∧
      s.dom.Perm (s.sentinel :: L) ∧
      (∀ a ∈ L, (s.mem a).value.isSome) ∧
      (s.mem s.sentinel).value = none ∧
      (∀ a ∈ s.dom, a < s.fresh))
    (by rw [chainOKb_iff]; exact Iff.rfl)

instance [DecidableEq T] (s1 s2 : State T) : Decidable (ObsEq s1 s2) :=
  inferInstanceAs (Decidable
    (s1.sentinel = s2.sentinel ∧ s1.dom = s2.dom ∧ s1.fresh = s2.fresh ∧
      ∀ a ∈ s1.dom, s1.mem a = s2.mem a))

instance (s : State T) : Decidable (RingInv s) :=
  inferInstanceAs (Decidable
    (∀ a ∈ s.dom, (s.mem ((s.mem a).next)).prev = a ∧ (s.mem ((s.mem a).prev)).next = a))

/-! ### Instrumented semantics for counting unlink steps

To reason about how many times the neighbour-rewiring step
(`Link::unlink`) runs on each node, the same code is mirrored once more
with a ghost counter recording, per address, the number of
`Link::unlink` invocations on it.  The underlying state transitions are
exactly those of the uninstrumented functions above. -/

/-- A state together with the ghost count of `Link::unlink` invocations
per node address. -/
structure CState (T : Type) where
  base : State T
  cnt : Nat → Nat

/-- Counting version of `Link.unlink`. -/
def Link.unlinkC (s : CState T) (a : Nat) : CState T :=
  { base := Link.unlink s.base a,
    cnt := fun b => if b = a then s.cnt a + 1 else s.cnt b }

/-- Counting version of `Handle.drop` (`Drop for Handle` calls
`Link::unlink` once, then frees the box). -/
def Handle.dropC (s : CState T) (a : Nat) : CState T :=
  let s1 := Link.unlinkC s a
  { s1 with base := Handle.free s1.base a }

/-- Counting version of `Handle.into_inner`: one `Link::unlink` in
`into_inner` itself, then the consumed handle's `Drop` runs a second
one. -/
def Handle.into_innerC (s : CState T) (a : Nat) : CState T × Option T :=
  let s1 := Link.unlinkC s a
  let v := (s1.base.mem a).value
  let s2 := { s1 with base := s1.base.set a { s1.base.mem a with value := none } }
  (Handle.dropC s2 a, v)

/-- Counting version of `ListHandle.unlink`. -/
def ListHandle.unlinkC (s : CState T) (a : Nat) : CState T × Option T :=
  Handle.into_innerC s a

/-! ### Basic facts about the heap primitives -/

@[simp] theorem set_mem (s : State T) (a b : Nat) (l : Link T) :
    (s.set a l).mem b = if b = a then l else s.mem b := rfl

@[simp] theorem set_dom (s : State T) (a : Nat) (l : Link T) :
    (s.set a l).dom = s.dom := rfl

@[simp] theorem set_sentinel (s : State T) (a : Nat) (l : Link T) :
    (s.set a l).sentinel = s.sentinel := rfl

@[simp] theorem set_fresh (s : State T) (a : Nat) (l : Link T) :
    (s.set a l).fresh = s.fresh := rfl

@[simp] theorem insert_after_dom (s : State T) (after h : Nat) :
    (insert_after s after h).dom = s.dom := rfl

@[simp] theorem insert_after_sentinel (s : State T) (after h : Nat) :
    (insert_after s after h).sentinel = s.sentinel := rfl

@[simp] theorem insert_after_fresh (s : State T) (after h : Nat) :
    (insert_after s after h).fresh = s.fresh := rfl

@[simp] theorem unlink_dom (s : State T) (a : Nat) :
    (Link.unlink s a).dom = s.dom := rfl

@[simp] theorem unlink_sentinel (s : State T) (a : Nat) :
    (Link.unlink s a).sentinel = s.sentinel := rfl

@[simp] theorem unlink_fresh (s : State T) (a : Nat) :
    (Link.unlink s a).fresh = s.fresh := rfl

/-- Linking never changes any stored value. -/
theorem insert_after_value (s : State T) (after h b : Nat) :
    ((insert_after s after h).mem b).value = (s.mem b).value := by
  simp only [insert_after, State.set]
  split_ifs <;> simp_all

/-- Unlinking never changes any stored value. -/
theorem unlink_value (s : State T) (a b : Nat) :
    ((Link.unlink s a).mem b).value = (s.mem b).value := by
  simp only [Link.unlink, State.set]
  split_ifs <;> simp_all

/-- Closed form of `insert_after` when the inserted node is distinct
from the anchor and from the anchor's successor (as is the case for a
freshly allocated node): exactly the four reference fields named in the
specification change. -/
theorem insert_after_mem (s : State T) {after h : Nat}
    (h1 : h ≠ after) (h2 : h ≠ (s.mem after).next) (b : Nat) :
    (insert_after s after h).mem b =
      if b = h then { next := (s.mem after).next, prev := after, value := (s.mem h).value }
      else if b = after then
        (if (s.mem after).next = after
         then { s.mem b with next := h, prev := h }
         else { s.mem b with next := h })
      else if b = (s.mem after).next then { s.mem b with prev := h }
      else s.mem b := by
  have h1' := Ne.symm h1
  have h2' := Ne.symm h2
  simp only [insert_after, State.set, h1, h2, h1', h2', if_false, ite_true, ite_false,
    eq_self_iff_true]
  split_ifs <;> first | omega | simp_all

/-- Closed form of `Link.unlink`: only the node's predecessor's `next`
field and its successor's `prev` field change. -/
theorem unlink_mem (s : State T) (a b : Nat) :
    (Link.unlink s a).mem b =
      if b = (s.mem a).prev then
        (if (s.mem a).prev = (s.mem a).next
         then { s.mem b with next := (s.mem a).next, prev := (s.mem a).prev }
         else { s.mem b with next := (s.mem a).next })
      else if b = (s.mem a).next then { s.mem b with prev := (s.mem a).prev }
      else s.mem b := by
  simp only [Link.unlink, State.set]
  split_ifs <;> first | omega | simp_all

/-- `Link.unlink` leaves every cell other than the node's two
neighbours untouched. -/
theorem unlink_mem_other (s : State T) {a b : Nat}
    (h1 : b ≠ (s.mem a).prev) (h2 : b ≠ (s.mem a).next) :
    (Link.unlink s a).mem b = s.mem b := by
  rw [unlink_mem, if_neg h1, if_neg h2]

/-- Unlinking a node never changes that node's own link fields. -/
theorem unlink_reads (s : State T) (a : Nat) :
    ((Link.unlink s a).mem a).prev = (s.mem a).prev ∧
      ((Link.unlink s a).mem a).next = (s.mem a).next := by
  rw [unlink_mem]
  split_ifs with hh1 hh2 hh3 <;> simp


/-- Structure extensionality for states. -/
theorem State.ext' (s1 s2 : State T) (hm : ∀ b, s1.mem b = s2.mem b)
    (hd : s1.dom = s2.dom) (hs : s1.sentinel = s2.sentinel) (hf : s1.fresh = s2.fresh) :
    s1 = s2 := by
  cases s1; cases s2
  rw [State.mk.injEq]
  exact ⟨funext hm, hd, hs, hf⟩

theorem Link.mk_next (l : Link T) {x : Nat} (h : l.next = x) :
    ({ l with next := x } : Link T) = l := by
  cases l; cases h; rfl

theorem Link.mk_prev (l : Link T) {x : Nat} (h : l.prev = x) :
    ({ l with prev := x } : Link T) = l := by
  cases l; cases h; rfl

theorem Link.mk_next_prev (l : Link T) {x y : Nat} (hx : l.next = x) (hy : l.prev = y) :
    ({ l with next := x, prev := y } : Link T) = l := by
  cases l; cases hx; cases hy; rfl

/-- Effect of `Link.unlink` on the predecessor, non-degenerate case. -/
theorem unlink_mem_p (s : State T) {a : Nat}
    (h1 : (s.mem a).prev ≠ (s.mem a).next) :
    (Link.unlink s a).mem ((s.mem a).prev) =
      { s.mem ((s.mem a).prev) with next := (s.mem a).next } := by
  rw [unlink_mem, if_pos rfl, if_neg h1]

/-- Effect of `Link.unlink` on the successor, non-degenerate case. -/
theorem unlink_mem_nx (s : State T) {a : Nat}
    (h1 : (s.mem a).prev ≠ (s.mem a).next) :
    (Link.unlink s a).mem ((s.mem a).next) =
      { s.mem ((s.mem a).next) with prev := (s.mem a).prev } := by
  rw [unlink_mem, if_neg (Ne.symm h1), if_pos rfl]

/-- Effect of `Link.unlink` when predecessor and successor coincide. -/
theorem unlink_mem_pn (s : State T) {a : Nat}
    (h1 : (s.mem a).prev = (s.mem a).next) :
    (Link.unlink s a).mem ((s.mem a).prev) =
      { s.mem ((s.mem a).prev) with next := (s.mem a).next, prev := (s.mem a).prev } := by
  rw [unlink_mem, if_pos rfl, if_pos h1]

/-- After an unlink, the predecessor's `next` field is the successor. -/
theorem unlink_p_next (s : State T) (a : Nat) :
    ((Link.unlink s a).mem ((s.mem a).prev)).next = (s.mem a).next := by
  by_cases hpn : (s.mem a).prev = (s.mem a).next
  · rw [unlink_mem_pn s hpn]
  · rw [unlink_mem_p s hpn]

/-- After an unlink, the successor's `prev` field is the predecessor. -/
theorem unlink_nx_prev (s : State T) (a : Nat) :
    ((Link.unlink s a).mem ((s.mem a).next)).prev = (s.mem a).prev := by
  by_cases hpn : (s.mem a).prev = (s.mem a).next
  · rw [← hpn, unlink_mem_pn s hpn]
  · rw [unlink_mem_nx s hpn]

/-- Running `Link::unlink` twice in a row on the same node rewrites the
same two fields with the same values: the second run is a no-op. -/
theorem unlink_unlink (s : State T) (a : Nat) :
    Link.unlink (Link.unlink s a) a = Link.unlink s a := by
  have hp := (unlink_reads s a).1
  have hn := (unlink_reads s a).2
  refine State.ext' _ _ ?_ rfl rfl rfl
  intro b
  rw [unlink_mem (Link.unlink s a) a b, hp, hn]
  by_cases hbp : b = (s.mem a).prev
  · subst hbp
    by_cases hpn : (s.mem a).prev = (s.mem a).next
    · rw [if_pos rfl, if_pos hpn, unlink_mem_pn s hpn]
    · rw [if_pos rfl, if_neg hpn, unlink_mem_p s hpn]
  · rw [if_neg hbp]
    by_cases hbn : b = (s.mem a).next
    · subst hbn
      have hpn : (s.mem a).prev ≠ (s.mem a).next := fun e => hbp e.symm
      rw [if_pos rfl, unlink_mem_nx s hpn]
    · rw [if_neg hbn, unlink_mem_other s hbp hbn]

/-- Running `Link::unlink` a second time after the node's value has been
taken is also a no-op on the state. -/
theorem unlink_after_take (s : State T) (a : Nat) :
    Link.unlink ((Link.unlink s a).set a { (Link.unlink s a).mem a with value := none }) a
      = (Link.unlink s a).set a { (Link.unlink s a).mem a with value := none } := by
  set u2 := (Link.unlink s a).set a { (Link.unlink s a).mem a with value := none } with hu2
  have hrp : (u2.mem a).prev = (s.mem a).prev := by
    rw [hu2]; simp [(unlink_reads s a).1]
  have hrn : (u2.mem a).next = (s.mem a).next := by
    rw [hu2]; simp [(unlink_reads s a).2]
  have hA : (u2.mem ((s.mem a).prev)).next = (s.mem a).next := by
    by_cases hpa : (s.mem a).prev = a
    · have e : u2.mem ((s.mem a).prev) = { (Link.unlink s a).mem a with value := none } := by
        rw [hu2, hpa]; simp
      rw [e]
      exact (unlink_reads s a).2
    · have e : u2.mem ((s.mem a).prev) = (Link.unlink s a).mem ((s.mem a).prev) := by
        rw [hu2]; simp [hpa]
      rw [e]
      exact unlink_p_next s a
  have hB : (u2.mem ((s.mem a).next)).prev = (s.mem a).prev := by
    by_cases hna : (s.mem a).next = a
    · have e : u2.mem ((s.mem a).next) = { (Link.unlink s a).mem a with value := none } := by
        rw [hu2, hna]; simp
      rw [e]
      exact (unlink_reads s a).1
    · have e : u2.mem ((s.mem a).next) = (Link.unlink s a).mem ((s.mem a).next) := by
        rw [hu2]; simp [hna]
      rw [e]
      exact unlink_nx_prev s a
  refine State.ext' _ _ ?_ rfl rfl rfl
  intro b
  rw [unlink_mem u2 a b, hrp, hrn]
  by_cases hbp : b = (s.mem a).prev
  · subst hbp
    by_cases hpn : (s.mem a).prev = (s.mem a).next
    · rw [if_pos rfl, if_pos hpn]
      exact Link.mk_next_prev _ hA (by rw [hpn] at hB ⊢; exact hB)
    · rw [if_pos rfl, if_neg hpn]
      exact Link.mk_next _ hA
  · rw [if_neg hbp]
    by_cases hbn : b = (s.mem a).next
    · subst hbn
      rw [if_pos rfl]
      exact Link.mk_prev _ hB
    · rw [if_neg hbn]

/-- Net effect of `Handle::into_inner`: one unlink, the value taken,
the node freed — the second unlink performed by `Drop` changes
nothing. -/
theorem into_inner_eq (s : State T) (a : Nat) :
    Handle.into_inner s a =
      (Handle.free ((Link.unlink s a).set a { (Link.unlink s a).mem a with value := none }) a,
        (s.mem a).value) := by
  simp only [Handle.into_inner, Handle.drop]
  rw [unlink_after_take, unlink_value]

/-- Explicit unlink hands back exactly the value stored in the node. -/
theorem handle_unlink_value (s : State T) (a : Nat) :
    (ListHandle.unlink s a).2 = (s.mem a).value := by
  rw [ListHandle.unlink, into_inner_eq]

/-- Dropping a handle and explicitly unlinking it produce observably
identical list states (they differ only in the value field of the
freed cell). -/
theorem drop_unlink_obsEq (s : State T) (a : Nat) (hnd : s.dom.Nodup) :
    ObsEq (Handle.drop s a) (ListHandle.unlink s a).1 := by
  rw [ListHandle.unlink, into_inner_eq]
  refine ⟨rfl, rfl, rfl, ?_⟩
  intro b hb
  have hb' : b ∈ s.dom.erase a := hb
  have hba : b ≠ a := by
    intro e; subst e
    exact (hnd.mem_erase_iff.mp hb').1 rfl
  show (Link.unlink s a).mem b =
    ((Link.unlink s a).set a { (Link.unlink s a).mem a with value := none }).mem b
  rw [set_mem, if_neg hba]

/-! ### Chain-based reasoning about the ring -/

/-- Transfer of a ring chain between two states that agree on the
`next` fields of all but the last element and the `prev` fields of all
but the first. -/
theorem chain'_linkOK_congr {s s' : State T} :
    ∀ {l : List Nat},
      (∀ b ∈ l.dropLast, (s'.mem b).next = (s.mem b).next) →
      (∀ b ∈ l.tail, (s'.mem b).prev = (s.mem b).prev) →
      List.Chain' (linkOK s) l → List.Chain' (linkOK s') l := by
  intro l
  induction l with
  | nil => intro _ _ _; exact List.chain'_nil
  | cons a tl ih =>
    cases tl with
    | nil => intro _ _ _; exact List.chain'_singleton a
    | cons c rest =>
      intro hn hp hch
      rw [List.chain'_cons] at hch ⊢
      refine ⟨⟨?_, ?_⟩, ?_⟩
      · rw [hn a (by rw [List.dropLast_cons₂]; exact List.mem_cons_self a _)]
        exact hch.1.1
      · rw [hp c (List.mem_cons_self c rest)]
        exact hch.1.2
      · apply ih
        · intro b hb
          apply hn
          rw [List.dropLast_cons₂]
          exact List.mem_cons_of_mem _ hb
        · intro b hb
          exact hp b (List.mem_cons_of_mem _ hb)
        · exact hch.2

/-- In a chain, every element except the last has a successor. -/
theorem chain'_next_of_mem {α : Type} {R : α → α → Prop} :
    ∀ {l : List α} {a : α}, List.Chain' R l → a ∈ l.dropLast → ∃ b, R a b := by
  intro l
  induction l with
  | nil => simp
  | cons x tl ih =>
    cases tl with
    | nil => simp
    | cons c rest =>
      intro a hch ha
      rw [List.chain'_cons] at hch
      rw [List.dropLast_cons₂, List.mem_cons] at ha
      rcases ha with rfl | ha
      · exact ⟨c, hch.1⟩
      · exact ih hch.2 ha

/-- In a chain, every element except the first has a predecessor. -/
theorem chain'_prev_of_mem {α : Type} {R : α → α → Prop} :
    ∀ {l : List α} {a : α}, List.Chain' R l → a ∈ l.tail → ∃ b, R b a := by
  intro l
  induction l with
  | nil => simp
  | cons x tl ih =>
    cases tl with
    | nil => simp
    | cons c rest =>
      intro a hch ha
      rw [List.chain'_cons] at hch
      rcases List.mem_cons.mp ha with rfl | ha
      · exact ⟨x, hch.1⟩
      · exact ih hch.2 ha

/-- Every member of a closed cycle `x :: M ++ [x]` satisfies both
cross-reference equations of the ring invariant. -/
theorem cycle_crossref {s : State T} {x : Nat} {M : List Nat}
    (hch : List.Chain' (linkOK s) (x :: M ++ [x])) :
    ∀ a ∈ x :: M, (s.mem ((s.mem a).next)).prev = a ∧ (s.mem ((s.mem a).prev)).next = a := by
  intro a ha
  have h1 : ∃ b, linkOK s a b := by
    apply chain'_next_of_mem hch
    rw [show (x :: M ++ [x]).dropLast = x :: M by
      rw [show x :: M ++ [x] = (x :: M) ++ [x] from rfl, List.dropLast_concat]]
    exact ha
  have h2 : ∃ b, linkOK s b a := by
    apply chain'_prev_of_mem hch
    rcases List.mem_cons.mp ha with rfl | ha'
    · exact List.mem_append_right _ (List.mem_singleton.mpr rfl)
    · exact List.mem_append_left _ ha'
  obtain ⟨b, hab1, hab2⟩ := h1
  obtain ⟨c, hca1, hca2⟩ := h2
  constructor
  · rw [hab1]; exact hab2
  · rw [hca2]; exact hca1

/-- Well-formedness is preserved under observable equality. -/
theorem Inv_of_obsEq {s s' : State T} {L : List Nat} (hinv : Inv s L) (he : ObsEq s s') :
    Inv s' L := by
  obtain ⟨hring, hnd, hperm, hval, hsent, hfr⟩ := hinv
  obtain ⟨hs, hd, hf, hm⟩ := he
  have hmemL : ∀ b ∈ s.sentinel :: L, s'.mem b = s.mem b := by
    intro b hb
    exact (hm b (hperm.mem_iff.mpr hb)).symm
  refine ⟨?_, ?_, ?_, ?_, ?_, ?_⟩
  · unfold Ring at hring ⊢
    rw [← hs]
    apply chain'_linkOK_congr ?_ ?_ hring
    · intro b hb
      rw [show (s.sentinel :: L ++ [s.sentinel]).dropLast = s.sentinel :: L by
        rw [show s.sentinel :: L ++ [s.sentinel] = (s.sentinel :: L) ++ [s.sentinel] from rfl,
          List.dropLast_concat]] at hb
      rw [hmemL b hb]
    · intro b hb
      have hb' : b ∈ s.sentinel :: L := by
        rcases List.mem_append.mp hb with h | h
        · exact List.mem_cons_of_mem _ h
        · rw [List.mem_singleton.mp h]; exact List.mem_cons_self _ _
      rw [hmemL b hb']
  · rw [← hs]; exact hnd
  · rw [← hd, ← hs]; exact hperm
  · intro a ha
    rw [hmemL a (List.mem_cons_of_mem _ ha)]
    exact hval a ha
  · rw [← hs, hmemL s.sentinel (List.mem_cons_self _ _)]
    exact hsent
  · rw [← hd, ← hf]; exact hfr


/-- `Link.unlink` changes the `next` field only at the node's
predecessor. -/
theorem unlink_next_other (s : State T) {a b : Nat} (hb : b ≠ (s.mem a).prev) :
    ((Link.unlink s a).mem b).next = (s.mem b).next := by
  rw [unlink_mem, if_neg hb]
  split_ifs <;> rfl

/-- `Link.unlink` changes the `prev` field only at the node's
successor. -/
theorem unlink_prev_other (s : State T) {a b : Nat} (hb : b ≠ (s.mem a).next) :
    ((Link.unlink s a).mem b).prev = (s.mem b).prev := by
  rw [unlink_mem]
  by_cases h1 : b = (s.mem a).prev
  · rw [if_pos h1, if_neg (show ¬(s.mem a).prev = (s.mem a).next from fun e => hb (h1.trans e))]
  · rw [if_neg h1, if_neg hb]

/-- `insert_after` changes `next` fields only at the new node and the
anchor. -/
theorem insert_next_other (s : State T) {after h b : Nat}
    (h1 : h ≠ after) (h2 : h ≠ (s.mem after).next)
    (hb1 : b ≠ h) (hb2 : b ≠ after) :
    ((insert_after s after h).mem b).next = (s.mem b).next := by
  rw [insert_after_mem s h1 h2, if_neg hb1, if_neg hb2]
  split_ifs <;> rfl

/-- `insert_after` changes `prev` fields only at the new node and the
anchor's old successor. -/
theorem insert_prev_other (s : State T) {after h b : Nat}
    (h1 : h ≠ after) (h2 : h ≠ (s.mem after).next)
    (hb1 : b ≠ h) (hb3 : b ≠ (s.mem after).next) :
    ((insert_after s after h).mem b).prev = (s.mem b).prev := by
  rw [insert_after_mem s h1 h2, if_neg hb1]
  by_cases e1 : b = after
  · rw [if_pos e1,
      if_neg (show ¬(s.mem after).next = after from fun e => hb3 (e1.trans e.symm))]
  · rw [if_neg e1, if_neg hb3]

/-- `push_head` preserves well-formedness: the new node becomes the
first element of the ring order. -/
theorem push_head_inv {s : State T} {L : List Nat} (hinv : Inv s L) (v : T) :
    Inv (push_head s v).1 ((push_head s v).2 :: L) := by
  obtain ⟨hring, hnd, hperm, hval, hsent, hfr⟩ := hinv
  set h := s.fresh with hh
  set x := s.sentinel with hx
  set s1 : State T := { mem := fun b => if b = h then Link.new v else s.mem b,
                        dom := h :: s.dom, sentinel := x, fresh := h + 1 } with hs1
  have hgoal : push_head s v = (insert_after s1 x h, h) := rfl
  rw [hgoal]
  have hxL : ∀ b ∈ x :: L, b ≠ h := by
    intro b hb
    exact Nat.ne_of_lt (hfr b (hperm.mem_iff.mpr hb))
  have hs1m : ∀ b, b ≠ h → s1.mem b = s.mem b := by
    intro b hb
    rw [hs1]
    simp [hb]
  have hxh : x ≠ h := hxL x (List.mem_cons_self _ _)
  have hhx : h ≠ x := Ne.symm hxh
  have hs1x : s1.mem x = s.mem x := hs1m x hxh
  have hs1h : s1.mem h = Link.new v := by rw [hs1]; simp
  -- the five non-ring components
  have hnd' : (x :: h :: L).Nodup := by
    rw [List.nodup_cons] at hnd ⊢
    rw [List.nodup_cons]
    refine ⟨?_, fun hm => hxL h (List.mem_cons_of_mem _ hm) rfl, hnd.2⟩
    intro hm
    rcases List.mem_cons.mp hm with e | hm2
    · exact hhx e.symm
    · exact hnd.1 hm2
  have hperm' : (insert_after s1 x h).dom.Perm (x :: h :: L) := by
    have e1 : (insert_after s1 x h).dom = h :: s.dom := rfl
    rw [e1]
    exact (hperm.cons h).trans (List.Perm.swap x h L)
  -- generic: values unchanged away from h
  have hvalmem : ∀ b, b ≠ h → ((insert_after s1 x h).mem b).value = (s.mem b).value := by
    intro b hb
    rw [insert_after_value, hs1m b hb]
  have hval' : ∀ a ∈ h :: L, ((insert_after s1 x h).mem a).value.isSome := by
    intro a ha
    rcases List.mem_cons.mp ha with rfl | ha2
    · rw [insert_after_value, hs1h]
      rfl
    · rw [hvalmem a (hxL a (List.mem_cons_of_mem _ ha2))]
      exact hval a ha2
  have hsent' : ((insert_after s1 x h).mem x).value = none := by
    rw [hvalmem x hxh]
    exact hsent
  have hfr' : ∀ a ∈ (insert_after s1 x h).dom, a < (insert_after s1 x h).fresh := by
    intro a ha
    have e1 : (insert_after s1 x h).dom = h :: s.dom := rfl
    rw [e1] at ha
    have e2 : (insert_after s1 x h).fresh = h + 1 := rfl
    rw [e2]
    rcases List.mem_cons.mp ha with rfl | ha2
    · exact Nat.lt_succ_self _
    · exact Nat.lt_succ_of_lt (hfr a ha2)
  -- the ring
  have hring' : Ring (insert_after s1 x h) (h :: L) := by
    unfold Ring at hring ⊢
    have es : (insert_after s1 x h).sentinel = x := rfl
    rw [es]
    cases L with
    | nil =>
      -- old ring is [x, x]; new ring is [x, h, x]
      simp only [List.cons_append, List.nil_append] at hring ⊢
      rw [List.chain'_cons] at hring
      obtain ⟨⟨hnx, hpx⟩, -⟩ := hring
      have h2 : h ≠ (s1.mem x).next := by rw [hs1x, hnx]; exact hhx
      have hmh := insert_after_mem s1 hhx h2 h
      rw [if_pos rfl] at hmh
      have hmx := insert_after_mem s1 hhx h2 x
      rw [if_neg hxh, if_pos rfl, if_pos (by rw [hs1x, hnx])] at hmx
      rw [List.chain'_cons, List.chain'_cons]
      refine ⟨⟨?_, ?_⟩, ⟨?_, ?_⟩, List.chain'_singleton x⟩
      · rw [hmx]
      · rw [hmh]
      · rw [hmh, hs1x, hnx]
      · rw [hmx]
    | cons l0 L' =>
      simp only [List.cons_append] at hring ⊢
      rw [List.chain'_cons] at hring
      obtain ⟨⟨hnx, hpl⟩, hch⟩ := hring
      -- hnx : (s.mem x).next = l0, hpl : (s.mem l0).prev = x
      have hl0x : l0 ≠ x := by
        intro e
        rw [List.nodup_cons] at hnd
        exact hnd.1 (e ▸ List.mem_cons_self l0 L')
      have h2 : h ≠ (s1.mem x).next := by
        rw [hs1x, hnx]
        exact Ne.symm (hxL l0 (List.mem_cons_of_mem _ (List.mem_cons_self _ _)))
      have hl0h : l0 ≠ h := hxL l0 (List.mem_cons_of_mem _ (List.mem_cons_self _ _))
      have hn1 : (s1.mem x).next = l0 := by rw [hs1x, hnx]
      have hmh := insert_after_mem s1 hhx h2 h
      rw [if_pos rfl] at hmh
      have hmx := insert_after_mem s1 hhx h2 x
      rw [if_neg hxh, if_pos rfl, if_neg (by rw [hn1]; exact hl0x)] at hmx
      have hml0 := insert_after_mem s1 hhx h2 l0
      rw [if_neg hl0h, if_neg hl0x, if_pos (by rw [hn1])] at hml0
      rw [List.chain'_cons, List.chain'_cons]
      refine ⟨⟨?_, ?_⟩, ⟨?_, ?_⟩, ?_⟩
      · rw [hmx, hs1x]
      · rw [hmh]
      · rw [hmh, hn1]
      · simp [hml0]
      · -- transfer the old chain on l0 :: L' ++ [x]
        apply chain'_linkOK_congr (s := s) ?_ ?_ hch
        · intro b hb
          rw [show (l0 :: (L' ++ [x])).dropLast = l0 :: L' by
            rw [show l0 :: (L' ++ [x]) = (l0 :: L') ++ [x] from rfl, List.dropLast_concat]] at hb
          have hbh : b ≠ h := hxL b (List.mem_cons_of_mem _ (by
            rcases List.mem_cons.mp hb with rfl | hb2
            · exact List.mem_cons_self _ _
            · exact List.mem_cons_of_mem _ hb2))
          have hbx : b ≠ x := by
            intro e
            rw [List.nodup_cons] at hnd
            exact hnd.1 (e ▸ (by
              rcases List.mem_cons.mp hb with rfl | hb2
              · exact List.mem_cons_self _ _
              · exact List.mem_cons_of_mem _ hb2))
          rw [insert_next_other s1 hhx h2 hbh hbx, hs1m b hbh]
        · intro b hb
          -- hb : b ∈ (l0 :: L' ++ [x]).tail = L' ++ [x]
          have hb' : b ∈ L' ++ [x] := hb
          have hbL : b ∈ x :: L' := by
            rcases List.mem_append.mp hb' with hm | hm
            · exact List.mem_cons_of_mem _ hm
            · rw [List.mem_singleton.mp hm]; exact List.mem_cons_self _ _
          have hbh : b ≠ h := by
            rcases List.mem_cons.mp hbL with rfl | hm
            · exact hxh
            · exact hxL b (List.mem_cons_of_mem _ (List.mem_cons_of_mem _ hm))
          have hbl0 : b ≠ (s1.mem x).next := by
            rw [hn1]
            intro e
            subst e
            rw [List.nodup_cons, List.nodup_cons] at hnd
            rcases List.mem_append.mp hb' with hm | hm
            · exact hnd.2.1 hm
            · exact hl0x (List.mem_singleton.mp hm)
          rw [insert_prev_other s1 hhx h2 hbh hbl0, hs1m b hbh]
  exact ⟨hring', hnd', hperm', hval', hsent', hfr'⟩

/-- `push_tail` preserves well-formedness: the new node becomes the
last element of the ring order. -/
theorem push_tail_inv {s : State T} {L : List Nat} (hinv : Inv s L) (v : T) :
    Inv (push_tail s v).1 (L ++ [(push_tail s v).2]) := by
  have hinv0 := hinv
  obtain ⟨hring, hnd, hperm, hval, hsent, hfr⟩ := hinv
  set h := s.fresh with hh
  set x := s.sentinel with hx
  set s1 : State T := { mem := fun b => if b = h then Link.new v else s.mem b,
                        dom := h :: s.dom, sentinel := x, fresh := h + 1 } with hs1
  have hgoal : push_tail s v = (insert_after s1 ((s1.mem x).prev) h, h) := rfl
  rw [hgoal]
  have hxL : ∀ b ∈ x :: L, b ≠ h := by
    intro b hb
    exact Nat.ne_of_lt (hfr b (hperm.mem_iff.mpr hb))
  have hs1m : ∀ b, b ≠ h → s1.mem b = s.mem b := by
    intro b hb
    rw [hs1]
    simp [hb]
  have hxh : x ≠ h := hxL x (List.mem_cons_self _ _)
  have hhx : h ≠ x := Ne.symm hxh
  have hs1x : s1.mem x = s.mem x := hs1m x hxh
  have hs1h : s1.mem h = Link.new v := by rw [hs1]; simp
  unfold Ring at hring
  rcases (x :: L).eq_nil_or_concat' with hnil | ⟨C, t, hCt⟩
  · exact absurd hnil (List.cons_ne_nil x L)
  rw [hCt, List.append_assoc] at hring
  rw [show ([t] ++ [x] : List Nat) = t :: x :: [] from rfl] at hring
  rw [List.chain'_append_cons_cons] at hring
  obtain ⟨hchC, ⟨hta, hxt⟩, -⟩ := hring
  have hanchor : (s1.mem x).prev = t := by rw [hs1x, hxt]
  rw [hanchor]
  cases C with
  | nil =>
    simp only [List.nil_append] at hCt
    injection hCt with h1 h2
    subst h2
    subst h1
    exact push_head_inv hinv0 v
  | cons c0 C'' =>
    have hc0 : c0 = x ∧ L = C'' ++ [t] := by
      rw [List.cons_append] at hCt
      injection hCt with e1 e2
      exact ⟨e1.symm, e2⟩
    obtain ⟨rfl, hL⟩ := hc0
    have hCnd : ((x :: C'') ++ [t]).Nodup := by
      rw [show (x :: C'') ++ [t] = x :: L from hCt.symm]
      exact hnd
    have htL : t ∈ L := by rw [hL]; exact List.mem_append_right _ (List.mem_singleton.mpr rfl)
    have hth : t ≠ h := hxL t (List.mem_cons_of_mem _ htL)
    have hht : h ≠ t := Ne.symm hth
    have htx : t ≠ x := by
      intro e
      rw [List.nodup_cons] at hnd
      exact hnd.1 (e ▸ htL)
    have hn1 : (s1.mem t).next = x := by rw [hs1m t hth, hta]
    have h2 : h ≠ (s1.mem t).next := by rw [hn1]; exact hhx
    have hmh := insert_after_mem s1 hht h2 h
    rw [if_pos rfl] at hmh
    have hmt := insert_after_mem s1 hht h2 t
    rw [if_neg hth, if_pos rfl,
      if_neg (show ¬(s1.mem t).next = t by rw [hn1]; exact fun e => htx e.symm)] at hmt
    have hmx := insert_after_mem s1 hht h2 x
    rw [if_neg hxh, if_neg (Ne.symm htx), if_pos (by rw [hn1])] at hmx
    -- non-ring components
    have hnd' : (x :: (L ++ [h])).Nodup := by
      rw [show x :: (L ++ [h]) = (x :: L) ++ [h] from rfl, List.nodup_append]
      exact ⟨hnd, List.nodup_singleton h,
        fun a ha hm => hxL a ha (List.mem_singleton.mp hm)⟩
    have hperm' : (insert_after s1 t h).dom.Perm (x :: (L ++ [h])) := by
      have e1 : (insert_after s1 t h).dom = h :: s.dom := rfl
      rw [e1]
      exact ((hperm.cons h).trans (List.Perm.swap x h L)).trans
        (((List.perm_append_singleton h L).cons x).symm)
    have hvalmem : ∀ b, b ≠ h → ((insert_after s1 t h).mem b).value = (s.mem b).value := by
      intro b hb
      rw [insert_after_value, hs1m b hb]
    have hval' : ∀ a ∈ L ++ [h], ((insert_after s1 t h).mem a).value.isSome := by
      intro a ha
      rcases List.mem_append.mp ha with hm | hm
      · rw [hvalmem a (hxL a (List.mem_cons_of_mem _ hm))]
        exact hval a hm
      · rw [List.mem_singleton.mp hm, insert_after_value, hs1h]
        rfl
    have hsent' : ((insert_after s1 t h).mem x).value = none := by
      rw [hvalmem x hxh]
      exact hsent
    have hfr' : ∀ a ∈ (insert_after s1 t h).dom, a < (insert_after s1 t h).fresh := by
      intro a ha
      have e1 : (insert_after s1 t h).dom = h :: s.dom := rfl
      rw [e1] at ha
      rcases List.mem_cons.mp ha with rfl | ha2
      · exact Nat.lt_succ_self _
      · exact Nat.lt_succ_of_lt (hfr a ha2)
    -- the ring
    have hring' : Ring (insert_after s1 t h) (L ++ [h]) := by
      unfold Ring
      have es : (insert_after s1 t h).sentinel = x := rfl
      rw [es]
      rw [show (x :: (L ++ [h])) ++ [x] = ((x :: C'') ++ [t]) ++ ([h] ++ [x]) by
        rw [hL]; simp]
      rw [List.append_assoc]
      rw [show ([t] ++ ([h] ++ [x]) : List Nat) = t :: h :: [x] from rfl]
      rw [List.chain'_append_cons_cons]
      refine ⟨?_, ⟨?_, ?_⟩, ?_⟩
      · -- chain on (x :: C'') ++ [t] transfers
        apply chain'_linkOK_congr (s := s) ?_ ?_ hchC
        · intro b hb
          rw [List.dropLast_concat] at hb
          have hbh : b ≠ h := by
            rcases List.mem_cons.mp hb with rfl | hm
            · exact hxh
            · exact hxL b (List.mem_cons_of_mem _ (by rw [hL]; exact List.mem_append_left _ hm))
          have hbt : b ≠ t := by
            intro e
            rw [List.nodup_append] at hCnd
            exact hCnd.2.2 hb (by rw [e]; exact List.mem_singleton.mpr rfl)
          rw [insert_next_other s1 hht h2 hbh hbt, hs1m b hbh]
        · intro b hb
          have hb' : b ∈ L := by
            rw [hL]
            exact hb
          have hbh : b ≠ h := hxL b (List.mem_cons_of_mem _ hb')
          have hb3 : b ≠ (s1.mem t).next := by
            rw [hn1]
            intro e
            rw [List.nodup_cons] at hnd
            exact hnd.1 (e ▸ hb')
          rw [insert_prev_other s1 hht h2 hbh hb3, hs1m b hbh]
      · simp [hmt]
      · simp [hmh]
      · rw [List.chain'_cons]
        refine ⟨⟨?_, ?_⟩, List.chain'_singleton x⟩
        · rw [hmh]
          exact hn1
        · simp [hmx]
    exact ⟨hring', hnd', hperm', hval', hsent', hfr'⟩

/-- Dropping the handle of a ring element preserves well-formedness;
the element leaves the ring order. -/
theorem drop_inv {s : State T} {L : List Nat} (hinv : Inv s L) {a : Nat} (ha : a ∈ L) :
    Inv (Handle.drop s a) (L.erase a) := by
  obtain ⟨hring, hnd, hperm, hval, hsent, hfr⟩ := hinv
  set x := s.sentinel with hx
  have hnd0 : x ∉ L := (List.nodup_cons.mp hnd).1
  have hndL : L.Nodup := (List.nodup_cons.mp hnd).2
  have hax : a ≠ x := fun e => hnd0 (e ▸ ha)
  -- generic facts used by every component
  have hmem' : ∀ b, (Handle.drop s a).mem b = (Link.unlink s a).mem b := fun _ => rfl
  have hdom' : (Handle.drop s a).dom = s.dom.erase a := rfl
  have hsent'' : (Handle.drop s a).sentinel = x := rfl
  have hfr'' : (Handle.drop s a).fresh = s.fresh := rfl
  have hnd' : (x :: L.erase a).Nodup :=
    List.Nodup.sublist (List.Sublist.cons₂ x (List.erase_sublist a L)) hnd
  have hperm' : (Handle.drop s a).dom.Perm (x :: L.erase a) := by
    rw [hdom']
    refine (hperm.erase a).trans ?_
    rw [show (x :: L).erase a = x :: L.erase a by
      rw [List.erase_cons_tail]
      simp [Ne.symm hax]]
  have hval' : ∀ b ∈ L.erase a, ((Handle.drop s a).mem b).value.isSome := by
    intro b hb
    rw [hmem', unlink_value]
    exact hval b (List.mem_of_mem_erase hb)
  have hsentv' : ((Handle.drop s a).mem x).value = none := by
    rw [hmem', unlink_value]
    exact hsent
  have hfr' : ∀ b ∈ (Handle.drop s a).dom, b < (Handle.drop s a).fresh := by
    intro b hb
    rw [hdom'] at hb
    rw [hfr'']
    exact hfr b (List.mem_of_mem_erase hb)
  -- the ring component
  unfold Ring at hring
  by_cases hone : L = [a]
  · -- removing the only element
    subst hone
    have hch : List.Chain' (linkOK s) (x :: a :: [x]) := hring
    rw [List.chain'_cons, List.chain'_cons] at hch
    obtain ⟨⟨hxa, haxp⟩, ⟨hanx, hpx⟩, -⟩ := hch
    have hpn : (s.mem a).prev = (s.mem a).next := by rw [haxp, hanx]
    have hmx : (Link.unlink s a).mem x = { s.mem x with next := x, prev := x } := by
      have e := unlink_mem_pn s hpn
      rw [haxp] at e
      rw [hanx] at e
      exact e
    refine ⟨?_, hnd', hperm', hval', hsentv', hfr'⟩
    unfold Ring
    rw [show ([a].erase a : List Nat) = [] from List.erase_cons_head a []]
    have : (Handle.drop s a).sentinel = x := rfl
    rw [this]
    show List.Chain' (linkOK (Handle.drop s a)) (x :: [x])
    rw [List.chain'_cons]
    refine ⟨⟨?_, ?_⟩, List.chain'_singleton x⟩
    · rw [hmem', hmx]
    · rw [hmem', hmx]
  · -- the general case: the ring around a is C ++ p :: a :: (L₂ ++ [x])
    obtain ⟨L₁, L₂, hL⟩ := List.append_of_mem ha
    have hndsplit : L₁.Nodup ∧ (a :: L₂).Nodup ∧ L₁.Disjoint (a :: L₂) := by
      rw [hL, List.nodup_append] at hndL
      exact hndL
    have haL₁ : a ∉ L₁ := fun hm => hndsplit.2.2 hm (List.mem_cons_self _ _)
    have haL₂ : a ∉ L₂ := (List.nodup_cons.mp hndsplit.2.1).1
    have hxL₁ : x ∉ L₁ := fun hm => hnd0 (by rw [hL]; exact List.mem_append_left _ hm)
    have hxL₂ : x ∉ L₂ := fun hm =>
      hnd0 (by rw [hL]; exact List.mem_append_right _ (List.mem_cons_of_mem _ hm))
    have hdisj : L₁.Disjoint L₂ := fun {b} hb1 hb2 => hndsplit.2.2 hb1 (List.mem_cons_of_mem _ hb2)
    obtain ⟨C, p, hCp⟩ : ∃ C p, x :: L₁ = C ++ [p] := by
      rcases (x :: L₁).eq_nil_or_concat' with e | ⟨C, p, e⟩
      · exact absurd e (List.cons_ne_nil _ _)
      · exact ⟨C, p, e⟩
    obtain ⟨nx, C₂, hNC⟩ : ∃ nx C₂, L₂ ++ [x] = nx :: C₂ := by
      cases L₂ with
      | nil => exact ⟨x, [], rfl⟩
      | cons d D => exact ⟨d, D ++ [x], rfl⟩
    have hlist : (x :: L) ++ [x] = C ++ (p :: a :: (L₂ ++ [x])) := by
      rw [hL, show x :: (L₁ ++ (a :: L₂)) = (x :: L₁) ++ (a :: L₂) from rfl, hCp]
      simp [List.append_assoc]
    rw [hlist, List.chain'_append_cons_cons] at hring
    obtain ⟨hchC, ⟨hpa, hap⟩, hchA⟩ := hring
    rw [hNC, List.chain'_cons] at hchA
    obtain ⟨⟨han, hna⟩, hchN⟩ := hchA
    have hpmem : p ∈ x :: L₁ := by
      rw [hCp]; exact List.mem_append_right _ (List.mem_singleton.mpr rfl)
    have hnxmem : nx ∈ L₂ ++ [x] := by rw [hNC]; exact List.mem_cons_self _ _
    have hpcases : p = x ∨ p ∈ L₁ := List.mem_cons.mp hpmem
    have hnxcases : nx ∈ L₂ ∨ nx = x := by
      rcases List.mem_append.mp hnxmem with hcase | hcase
      · exact Or.inl hcase
      · exact Or.inr (List.mem_singleton.mp hcase)
    have hndC : (C ++ [p]).Nodup := by
      rw [← hCp]
      exact List.Nodup.sublist
        (List.Sublist.cons₂ x (by rw [hL]; exact List.sublist_append_left L₁ (a :: L₂))) hnd
    have hndN : (nx :: C₂).Nodup := by
      rw [← hNC, List.nodup_append]
      exact ⟨(List.nodup_cons.mp hndsplit.2.1).2, List.nodup_singleton x,
        fun {b} hb1 hb2 => hxL₂ ((List.mem_singleton.mp hb2) ▸ hb1)⟩
    -- p and nx are distinct (else the list would be exactly [a])
    have hpnx : p ≠ nx := by
      intro e
      rcases hpcases with hpx | hpL1
      · rcases hnxcases with hnxL2 | hnxx
        · exact hxL₂ ((hpx.symm.trans e) ▸ hnxL2)
        · -- p = x and nx = x: then L₁ = [] and L₂ = [], so L = [a]
          have hL₂nil : L₂ = [] := by
            cases L₂ with
            | nil => rfl
            | cons d D =>
              rw [List.cons_append] at hNC
              injection hNC with e1 _
              have hdx : d = x := e1.trans hnxx
              exact (hxL₂ (List.mem_cons.mpr (Or.inl hdx.symm))).elim
          have hL₁nil : L₁ = [] := by
            cases C with
            | nil =>
              rw [List.nil_append] at hCp
              have := congrArg List.tail hCp
              simpa using this
            | cons c C' =>
              rw [List.cons_append] at hCp
              injection hCp with e1 e2
              exact (hxL₁ (show x ∈ L₁ by
                rw [e2, hpx]
                exact List.mem_append_right _ (List.mem_singleton.mpr rfl))).elim
          rw [hL₁nil] at hL
          rw [hL₂nil] at hL
          exact hone (by simpa using hL)
      · rcases hnxcases with hnxL2 | hnxx
        · exact hdisj hpL1 (e ▸ hnxL2)
        · exact hxL₁ ((e.trans hnxx) ▸ hpL1)
    have hpn' : (s.mem a).prev ≠ (s.mem a).next := by rw [hap, han]; exact hpnx
    -- pointwise effect of the unlink
    have hup : (Link.unlink s a).mem p = { s.mem p with next := nx } := by
      have e := unlink_mem_p s hpn'
      rw [hap, han] at e
      exact e
    have hunx : (Link.unlink s a).mem nx = { s.mem nx with prev := p } := by
      have e := unlink_mem_nx s hpn'
      rw [hap, han] at e
      exact e
    have hother : ∀ b, b ≠ p → b ≠ nx → (Link.unlink s a).mem b = s.mem b := by
      intro b h1 h2
      exact unlink_mem_other s (by rw [hap]; exact h1) (by rw [han]; exact h2)
    have hnexto : ∀ b, b ≠ p → ((Link.unlink s a).mem b).next = (s.mem b).next := by
      intro b h1
      exact unlink_next_other s (by rw [hap]; exact h1)
    have hprevo : ∀ b, b ≠ nx → ((Link.unlink s a).mem b).prev = (s.mem b).prev := by
      intro b h1
      exact unlink_prev_other s (by rw [han]; exact h1)
    -- the new ring
    have hErase : L.erase a = L₁ ++ L₂ := by
      rw [hL, List.erase_append_right _ haL₁, List.erase_cons_head]
    refine ⟨?_, hnd', hperm', hval', hsentv', hfr'⟩
    unfold Ring
    rw [hsent'', hErase]
    rw [show (x :: (L₁ ++ L₂)) ++ [x] = C ++ (p :: (nx :: C₂)) by
      rw [show x :: (L₁ ++ L₂) = (x :: L₁) ++ L₂ from rfl, hCp]
      rw [List.append_assoc, List.append_assoc, ← hNC]
      simp]
    rw [List.chain'_append_cons_cons]
    refine ⟨?_, ⟨?_, ?_⟩, ?_⟩
    · -- chain on C ++ [p]
      apply chain'_linkOK_congr (s := s) ?_ ?_ hchC
      · intro b hb
        rw [List.dropLast_concat] at hb
        have hbp : b ≠ p := fun e => (List.nodup_append.mp hndC).2.2 hb
          (by rw [e]; exact List.mem_singleton.mpr rfl)
        rw [hmem'] at *
        exact hnexto b hbp
      · intro b hb
        have hbL₁ : b ∈ L₁ := by
          have : (C ++ [p]).tail = L₁ := by rw [← hCp]; rfl
          rwa [this] at hb
        have hbnx : b ≠ nx := by
          intro e
          rcases hnxcases with hnxL2 | hnxx
          · exact hdisj hbL₁ (e ▸ hnxL2)
          · exact hxL₁ ((e.trans hnxx) ▸ hbL₁)
        exact hprevo b hbnx
    · -- linkOK p nx, next part
      show ((Handle.drop s a).mem p).next = nx
      rw [hmem', hup]
    · -- linkOK p nx, prev part
      show ((Handle.drop s a).mem nx).prev = p
      rw [hmem', hunx]
    · -- chain on nx :: C₂
      apply chain'_linkOK_congr (s := s) ?_ ?_ hchN
      · intro b hb
        have hbL₂ : b ∈ L₂ := by
          have e1 : (nx :: C₂).dropLast = L₂ := by rw [← hNC, List.dropLast_concat]
          rwa [e1] at hb
        have hbp : b ≠ p := by
          intro e
          rcases hpcases with hpx | hpL1
          · exact hxL₂ ((e.trans hpx) ▸ hbL₂)
          · exact hdisj hpL1 (e ▸ hbL₂)
        exact hnexto b hbp
      · intro b hb
        have hbnx : b ≠ nx := by
          intro e
          rw [List.nodup_cons] at hndN
          exact hndN.1 (e ▸ hb)
        exact hprevo b hbnx

/-- Unlinking through a handle preserves well-formedness (the state is
observably the same as after a drop). -/
theorem unlink_inv {s : State T} {L : List Nat} (hinv : Inv s L) {a : Nat} (ha : a ∈ L) :
    Inv (ListHandle.unlink s a).1 (L.erase a) := by
  have hdomnd : s.dom.Nodup := (hinv.2.2.1.nodup_iff).mpr hinv.2.1
  exact Inv_of_obsEq (drop_inv hinv ha) (drop_unlink_obsEq s a hdomnd)

/-- The initial state of `List::new` is well-formed with no elements. -/
theorem new_inv : Inv (List.new : State T) [] := by
  refine ⟨?_, ?_, ?_, ?_, ?_, ?_⟩
  · show List.Chain' (linkOK (List.new : State T)) ([0] ++ [0])
    rw [show ([0] ++ [0] : List Nat) = 0 :: [0] from rfl, List.chain'_cons]
    exact ⟨⟨rfl, rfl⟩, List.chain'_singleton 0⟩
  · exact List.nodup_singleton 0
  · exact List.Perm.refl _
  · intro a ha
    exact absurd ha (List.not_mem_nil a)
  · rfl
  · intro a ha
    rw [List.mem_singleton.mp ha]
    exact Nat.zero_lt_one

/-- Every public operation preserves well-formedness for some ring
order. -/
theorem step_inv {s : State T} {L : List Nat} (hinv : Inv s L) (op : Op T) :
    ∃ L', Inv (step s op) L' := by
  cases op with
  | pushHead v => exact ⟨_, push_head_inv hinv v⟩
  | pushTail v => exact ⟨_, push_tail_inv hinv v⟩
  | unlinkOp a =>
    show ∃ L', Inv (if a ∈ s.dom ∧ a ≠ s.sentinel then (ListHandle.unlink s a).1 else s) L'
    by_cases hc : a ∈ s.dom ∧ a ≠ s.sentinel
    · rw [if_pos hc]
      have haL : a ∈ L := by
        rcases List.mem_cons.mp (hinv.2.2.1.mem_iff.mp hc.1) with e | hm
        · exact absurd e hc.2
        · exact hm
      exact ⟨_, unlink_inv hinv haL⟩
    · rw [if_neg hc]
      exact ⟨L, hinv⟩
  | dropOp a =>
    show ∃ L', Inv (if a ∈ s.dom ∧ a ≠ s.sentinel then Handle.drop s a else s) L'
    by_cases hc : a ∈ s.dom ∧ a ≠ s.sentinel
    · rw [if_pos hc]
      have haL : a ∈ L := by
        rcases List.mem_cons.mp (hinv.2.2.1.mem_iff.mp hc.1) with e | hm
        · exact absurd e hc.2
        · exact hm
      exact ⟨_, drop_inv hinv haL⟩
    · rw [if_neg hc]
      exact ⟨L, hinv⟩

/-- Any sequence of public operations started from a well-formed state
ends in a well-formed state. -/
theorem run_inv {s : State T} {L : List Nat} (hinv : Inv s L) :
    ∀ ops : List (Op T), ∃ L', Inv (run s ops) L' := by
  intro ops
  induction ops generalizing s L with
  | nil => exact ⟨L, hinv⟩
  | cons op ops ih =>
    obtain ⟨L', hinv'⟩ := step_inv hinv op
    exact ih hinv'

/-- Well-formedness implies the specification's ring invariant. -/
theorem RingInv_of_inv {s : State T} {L : List Nat} (hinv : Inv s L) : RingInv s := by
  intro b hb
  exact cycle_crossref hinv.1 b (hinv.2.2.1.mem_iff.mp hb)

/-- In a well-formed state, the sentinel's successor is itself exactly
when the element order is empty. -/
theorem empty_iff_next (hinv : Inv (s : State T) L) :
    (s.mem s.sentinel).next = s.sentinel ↔ L = [] := by
  obtain ⟨hring, hnd, hperm, -, -, -⟩ := hinv
  constructor
  · intro he
    cases L with
    | nil => rfl
    | cons l0 L' =>
      unfold Ring at hring
      rw [show (s.sentinel :: l0 :: L') ++ [s.sentinel]
          = s.sentinel :: l0 :: (L' ++ [s.sentinel]) from rfl, List.chain'_cons] at hring
      have : l0 = s.sentinel := by rw [← hring.1.1, he]
      rw [List.nodup_cons] at hnd
      exact absurd (this ▸ List.mem_cons_self l0 L') hnd.1
  · intro he
    subst he
    unfold Ring at hring
    rw [show (s.sentinel :: ([] : List Nat)) ++ [s.sentinel]
        = s.sentinel :: [s.sentinel] from rfl, List.chain'_cons] at hring
    exact hring.1.1

/-- In a well-formed state, the sentinel's predecessor is itself exactly
when the element order is empty. -/
theorem empty_iff_prev (hinv : Inv (s : State T) L) :
    (s.mem s.sentinel).prev = s.sentinel ↔ L = [] := by
  obtain ⟨hring, hnd, hperm, -, -, -⟩ := hinv
  unfold Ring at hring
  rcases (s.sentinel :: L).eq_nil_or_concat' with e | ⟨C, t, hCt⟩
  · exact absurd e (List.cons_ne_nil _ _)
  rw [hCt, List.append_assoc,
    show ([t] ++ [s.sentinel] : List Nat) = t :: s.sentinel :: [] from rfl,
    List.chain'_append_cons_cons] at hring
  obtain ⟨-, ⟨-, hxt⟩, -⟩ := hring
  constructor
  · intro he
    cases C with
    | nil =>
      have := congrArg List.tail hCt
      simpa using this
    | cons c C' =>
      rw [List.cons_append] at hCt
      injection hCt with e1 e2
      -- t is the last element; sentinel.prev = t = sentinel forces contradiction
      have htx : t = s.sentinel := by rw [← hxt, he]
      rw [List.nodup_cons] at hnd
      exact absurd (show s.sentinel ∈ L by
        rw [e2, htx]
        exact List.mem_append_right _ (List.mem_singleton.mpr rfl)) hnd.1
  · intro he
    subst he
    have : C = [] ∧ t = s.sentinel := by
      cases C with
      | nil =>
        constructor
        · rfl
        · have := congrArg List.head? hCt
          simpa using this.symm
      | cons c C' =>
        rw [List.cons_append] at hCt
        injection hCt with e1 e2
        exact absurd e2 (by simp)
    rw [hxt, this.2]

/-- In a well-formed state, the element order is empty exactly when the
sentinel is the only allocated node. -/
theorem empty_iff_dom (hinv : Inv (s : State T) L) :
    L = [] ↔ ∀ b ∈ s.dom, b = s.sentinel := by
  obtain ⟨-, hnd, hperm, -, -, -⟩ := hinv
  constructor
  · intro he
    subst he
    intro b hb
    exact List.mem_singleton.mp (hperm.mem_iff.mp hb)
  · intro hall
    cases L with
    | nil => rfl
    | cons l0 L' =>
      have : l0 = s.sentinel :=
        hall l0 (hperm.mem_iff.mpr (List.mem_cons_of_mem _ (List.mem_cons_self _ _)))
      rw [List.nodup_cons] at hnd
      exact absurd (this ▸ List.mem_cons_self l0 L') hnd.1

/-- Walking `Iter` down a chain that ends at the sentinel collects the
values of the traversed nodes. -/
theorem iterCollect_chain {s : State T} :
    ∀ (M : List Nat) (a : Nat) (fuel : Nat),
      List.Chain' (linkOK s) ((a :: M) ++ [s.sentinel]) →
      (∀ b ∈ a :: M, (s.mem b).value.isSome) →
      (s.mem s.sentinel).value = none →
      (a :: M).length < fuel →
      iterCollect s a fuel = (a :: M).filterMap (fun b => (s.mem b).value) := by
  intro M
  induction M with
  | nil =>
    intro a fuel hch hsome hnone hfuel
    rw [show ((a :: []) ++ [s.sentinel] : List Nat) = a :: s.sentinel :: [] from rfl,
      List.chain'_cons] at hch
    obtain ⟨⟨hnx, -⟩, -⟩ := hch
    obtain ⟨v, hv⟩ := Option.isSome_iff_exists.mp (hsome a (List.mem_cons_self a []))
    match fuel, hfuel with
    | Nat.succ f, hfuel =>
      have hf : 0 < f := by simpa using hfuel
      match f, hf with
      | Nat.succ f', _ =>
        show iterCollect s a (Nat.succ (Nat.succ f')) = _
        rw [iterCollect]
        rw [hv, hnx]
        rw [iterCollect]
        rw [hnone]
        simp [hv]
  | cons c M' ih =>
    intro a fuel hch hsome hnone hfuel
    rw [show ((a :: c :: M') ++ [s.sentinel] : List Nat)
        = a :: c :: (M' ++ [s.sentinel]) from rfl, List.chain'_cons] at hch
    obtain ⟨⟨hnx, -⟩, hch'⟩ := hch
    obtain ⟨v, hv⟩ := Option.isSome_iff_exists.mp (hsome a (List.mem_cons_self _ _))
    match fuel, hfuel with
    | Nat.succ f, hfuel =>
      rw [iterCollect]
      rw [hv, hnx]
      rw [ih c f hch' (fun b hb => hsome b (List.mem_cons_of_mem _ hb)) hnone
        (by simpa using hfuel)]
      simp [hv]

/-- Iterating an exhausted `Iter` (sitting on a valueless node) yields
nothing, with any amount of fuel. -/
theorem iterCollect_none {s : State T} {it : Nat} (h : (s.mem it).value = none) :
    ∀ fuel, iterCollect s it fuel = [] := by
  intro fuel
  cases fuel with
  | zero => rfl
  | succ f =>
    rw [iterCollect, h]

/-- Under the invariant, a full `Iter` traversal yields exactly the
stored values in ring order. -/
theorem iterCollect_inv {s : State T} {L : List Nat} (hinv : Inv s L) :
    ∀ fuel, L.length < fuel →
      iterCollect s (List.iter s) fuel = L.filterMap (fun b => (s.mem b).value) := by
  intro fuel hfuel
  obtain ⟨hring, hnd, hperm, hval, hsent, hfr⟩ := hinv
  cases L with
  | nil =>
    have hnx : (s.mem s.sentinel).next = s.sentinel := by
      unfold Ring at hring
      rw [show ((s.sentinel :: []) ++ [s.sentinel] : List Nat)
          = s.sentinel :: s.sentinel :: [] from rfl, List.chain'_cons] at hring
      exact hring.1.1
    rw [show List.iter s = (s.mem s.sentinel).next from rfl, hnx]
    rw [iterCollect_none hsent fuel]
    rfl
  | cons l0 L' =>
    have hch : List.Chain' (linkOK s) (s.sentinel :: l0 :: (L' ++ [s.sentinel])) := hring
    rw [List.chain'_cons] at hch
    obtain ⟨⟨hnx, -⟩, hch'⟩ := hch
    rw [show List.iter s = (s.mem s.sentinel).next from rfl, hnx]
    exact iterCollect_chain L' l0 fuel hch' hval hsent hfuel

/-- A full traversal with the fuel used by `iterToList` (the number of
allocated nodes). -/
theorem iterToList_inv {s : State T} {L : List Nat} (hinv : Inv s L) :
    List.iterToList s = L.filterMap (fun b => (s.mem b).value) := by
  have hlen : s.dom.length = L.length + 1 := by
    rw [hinv.2.2.1.length_eq]
    rfl
  unfold List.iterToList
  exact iterCollect_inv hinv s.dom.length (by rw [hlen]; exact Nat.lt_succ_self _)

/-- Once `Iter::next` has answered `None`, the iterator's position no
longer moves, and every later call answers `None` as well. -/
theorem iter_fused (s : State T) (it : Nat) (h : (Iter.next s it).1 = none) :
    ∀ k, Iter.advanceN s it k = it ∧ (Iter.next s (Iter.advanceN s it k)).1 = none := by
  have hv : (s.mem it).value = none := by
    unfold Iter.next at h
    cases he : (s.mem it).value with
    | none => rfl
    | some v => rw [he] at h; exact absurd h (by simp)
  have hstep : Iter.next s it = (none, it) := by
    unfold Iter.next
    rw [hv]
  intro k
  induction k with
  | zero => exact ⟨rfl, by rw [Iter.advanceN]; exact h⟩
  | succ n ih =>
    have : Iter.advanceN s it (Nat.succ n) = Iter.advanceN s (Iter.next s it).2 n := rfl
    rw [this, hstep] at *
    exact ⟨ih.1, by rw [ih.1]; exact h⟩

/-- `IterMut::next` at the sentinel answers `None` but advances past it;
on a non-empty list the very next call yields the head element again. -/
theorem iterMut_restarts {s : State T} {L : List Nat} (hinv : Inv s L) (hne : L ≠ []) :
    (IterMut.next s (some s.sentinel)).1 = none ∧
      (IterMut.next s (some s.sentinel)).2 = some ((s.mem s.sentinel).next) ∧
      (IterMut.next s ((IterMut.next s (some s.sentinel)).2)).1
        = some ((s.mem s.sentinel).next) := by
  obtain ⟨hring, hnd, hperm, hval, hsent, hfr⟩ := hinv
  cases L with
  | nil => exact absurd rfl hne
  | cons l0 L' =>
    have hch : List.Chain' (linkOK s) (s.sentinel :: l0 :: (L' ++ [s.sentinel])) := hring
    rw [List.chain'_cons] at hch
    obtain ⟨⟨hnx, -⟩, -⟩ := hch
    obtain ⟨v, hv⟩ := Option.isSome_iff_exists.mp (hval l0 (List.mem_cons_self _ _))
    refine ⟨?_, ?_, ?_⟩
    · simp [IterMut.next, hsent]
    · simp [IterMut.next, hsent]
    · have e2 : (IterMut.next s (some s.sentinel)).2 = some ((s.mem s.sentinel).next) := by
        simp [IterMut.next, hsent]
      rw [e2, hnx]
      simp [IterMut.next, hv, hnx]

/-- Characterization of the four peek operations under the invariant. -/
theorem peek_inv {s : State T} {L : List Nat} (hinv : Inv s L) :
    (peek_head s = none ↔ (s.mem s.sentinel).next = s.sentinel) ∧
      (peek_tail s = none ↔ (s.mem s.sentinel).prev = s.sentinel) ∧
      (peek_head s = none ↔ L = []) ∧ (peek_tail s = none ↔ L = []) := by
  have hhead : peek_head s = none ↔ L = [] := by
    constructor
    · intro he
      by_contra hne
      cases L with
      | nil => exact hne rfl
      | cons l0 L' =>
        have hch : List.Chain' (linkOK s) (s.sentinel :: l0 :: (L' ++ [s.sentinel])) :=
          hinv.1
        rw [List.chain'_cons] at hch
        obtain ⟨⟨hnx, -⟩, -⟩ := hch
        obtain ⟨v, hv⟩ := Option.isSome_iff_exists.mp
          (hinv.2.2.2.1 l0 (List.mem_cons_self _ _))
        unfold peek_head at he
        rw [hnx, hv] at he
        exact Option.noConfusion he
    · intro he
      have hnx := (empty_iff_next hinv).mpr he
      unfold peek_head
      rw [hnx]
      exact hinv.2.2.2.2.1
  have htail : peek_tail s = none ↔ L = [] := by
    constructor
    · intro he
      by_contra hne
      have hprev : (s.mem s.sentinel).prev ∈ L := by
        -- the sentinel's predecessor is the last element of L
        rcases L.eq_nil_or_concat' with e | ⟨C, t, hCt⟩
        · exact absurd e hne
        have hring := hinv.1
        unfold Ring at hring
        rw [hCt, show (s.sentinel :: (C ++ [t])) ++ [s.sentinel]
            = (s.sentinel :: C) ++ (t :: s.sentinel :: []) from by simp] at hring
        rw [List.chain'_append_cons_cons] at hring
        obtain ⟨-, ⟨-, hxt⟩, -⟩ := hring
        rw [hxt, hCt]
        exact List.mem_append_right _ (List.mem_singleton.mpr rfl)
      obtain ⟨v, hv⟩ := Option.isSome_iff_exists.mp (hinv.2.2.2.1 _ hprev)
      unfold peek_tail at he
      rw [hv] at he
      exact Option.noConfusion he
    · intro he
      have hpv := (empty_iff_prev hinv).mpr he
      unfold peek_tail
      rw [hpv]
      exact hinv.2.2.2.2.1
  exact ⟨hhead.trans (empty_iff_next hinv).symm, htail.trans (empty_iff_prev hinv).symm,
    hhead, htail⟩

/-- Effect of dropping the `List` (and with it the sentinel's handle) on
a non-empty list: the remaining nodes form a sentinel-less ring in the
same order, with all values intact; only the sentinel leaves the
allocated set. -/
theorem dropList_spec {s : State T} {l0 : Nat} {L' : List Nat} (hinv : Inv s (l0 :: L')) :
    List.Chain' (linkOK (dropList s)) ((l0 :: L') ++ [l0]) ∧
    (∀ a, ((dropList s).mem a).value = (s.mem a).value) ∧
    (dropList s).dom = s.dom.erase s.sentinel ∧
    ((dropList s).mem l0).prev = (l0 :: L').getLast (List.cons_ne_nil l0 L') ∧
    ((dropList s).mem ((l0 :: L').getLast (List.cons_ne_nil l0 L'))).next = l0 := by
  obtain ⟨hring, hnd, hperm, hval, hsent, hfr⟩ := hinv
  set x := s.sentinel with hx
  have hmem' : ∀ b, (dropList s).mem b = (Link.unlink s x).mem b := fun _ => rfl
  have hvals : ∀ a, ((dropList s).mem a).value = (s.mem a).value := by
    intro a
    rw [hmem', unlink_value]
  obtain ⟨C, t, hCt⟩ : ∃ C t, l0 :: L' = C ++ [t] := by
    rcases (l0 :: L').eq_nil_or_concat' with e | ⟨C, t, e⟩
    · exact absurd e (List.cons_ne_nil _ _)
    · exact ⟨C, t, e⟩
  have hgetlast : (l0 :: L').getLast (List.cons_ne_nil l0 L') = t := by
    have h1 : (l0 :: L').getLast? = some t := by
      rw [hCt]
      exact List.getLast?_concat _
    have h2 : (l0 :: L').getLast? = some ((l0 :: L').getLast (List.cons_ne_nil l0 L')) :=
      List.getLast?_eq_getLast _ _
    exact Option.some.inj (h2.symm.trans h1)
  unfold Ring at hring
  have hring2 : List.Chain' (linkOK s) ((x :: C) ++ (t :: x :: [])) := by
    rw [show (x :: C) ++ (t :: x :: []) = (x :: (C ++ [t])) ++ [x] by simp]
    rw [← hCt]
    exact hring
  rw [List.chain'_append_cons_cons] at hring2
  obtain ⟨hchXC, ⟨htx, hxt⟩, -⟩ := hring2
  have hring3 : List.Chain' (linkOK s) (x :: l0 :: (L' ++ [x])) := hring
  rw [List.chain'_cons] at hring3
  obtain ⟨⟨hxl, hlx⟩, hchL⟩ := hring3
  have htmem : t ∈ l0 :: L' := by
    rw [hCt]
    exact List.mem_append_right _ (List.mem_singleton.mpr rfl)
  have hnd1 : (l0 :: L').Nodup := (List.nodup_cons.mp hnd).2
  cases C with
  | nil =>
    -- single element: t = l0, the remaining node becomes self-linked
    rw [List.nil_append] at hCt
    injection hCt with e1 e2
    subst e2
    have e1' : t = l0 := e1.symm
    subst e1'
    have hpn : (s.mem x).prev = (s.mem x).next := by rw [hxt, hxl]
    have e := unlink_mem_pn s hpn
    rw [hxt] at e
    rw [hxl] at e
    refine ⟨?_, hvals, rfl, ?_, ?_⟩
    · show List.Chain' (linkOK (dropList s)) (t :: [t])
      rw [List.chain'_cons]
      refine ⟨⟨?_, ?_⟩, List.chain'_singleton t⟩
      · rw [hmem', e]
      · rw [hmem', e]
    · rw [hgetlast, hmem', e]
    · rw [hgetlast, hmem', e]
  | cons c C' =>
    rw [List.cons_append] at hCt
    injection hCt with e1 e2
    subst e1
    have hl0L' : l0 ∉ L' := (List.nodup_cons.mp hnd1).1
    have htL' : t ∈ L' := by
      rw [e2]
      exact List.mem_append_right _ (List.mem_singleton.mpr rfl)
    have htl0 : t ≠ l0 := fun e => hl0L' (e ▸ htL')
    have hpn' : (s.mem x).prev ≠ (s.mem x).next := by
      rw [hxt, hxl]
      exact htl0
    have hmt : (Link.unlink s x).mem t = { s.mem t with next := l0 } := by
      have e := unlink_mem_p s hpn'
      rw [hxt] at e
      rw [hxl] at e
      exact e
    have hml0 : (Link.unlink s x).mem l0 = { s.mem l0 with prev := t } := by
      have e := unlink_mem_nx s hpn'
      rw [hxl] at e
      rw [hxt] at e
      exact e
    have hoth : ∀ b, b ≠ t → b ≠ l0 → (Link.unlink s x).mem b = s.mem b := by
      intro b h1 h2
      exact unlink_mem_other s (by rw [hxt]; exact h1) (by rw [hxl]; exact h2)
    have hndC : ((l0 :: C') ++ [t]).Nodup := by
      rw [show (l0 :: C') ++ [t] = l0 :: L' from by rw [List.cons_append, ← e2]]
      exact hnd1
    have hchC : List.Chain' (linkOK s) ((l0 :: C') ++ [t]) := by
      have h1 : List.Chain' (linkOK s) (x :: l0 :: L') := (List.chain'_append.mp hring).1
      rw [List.chain'_cons] at h1
      rw [show (l0 :: C') ++ [t] = l0 :: L' from by rw [List.cons_append, ← e2]]
      exact h1.2
    refine ⟨?_, hvals, rfl, ?_, ?_⟩
    · -- new ring chain: (l0 :: L') ++ [l0] = (l0 :: C') ++ (t :: l0 :: [])
      rw [show (l0 :: L') ++ [l0] = (l0 :: C') ++ (t :: l0 :: []) from by rw [e2]; simp]
      rw [List.chain'_append_cons_cons]
      refine ⟨?_, ⟨?_, ?_⟩, List.chain'_singleton l0⟩
      · apply chain'_linkOK_congr (s := s) ?_ ?_ hchC
        · intro b hb
          rw [List.dropLast_concat] at hb
          have hbt : b ≠ t := fun e => (List.nodup_append.mp hndC).2.2 hb
            (by rw [e]; exact List.mem_singleton.mpr rfl)
          rw [hmem']
          by_cases hbl : b = l0
          · rw [hbl, hml0]
          · rw [hoth b hbt hbl]
        · intro b hb
          have hb' : b ∈ C' ++ [t] := hb
          have hbl0 : b ≠ l0 := by
            intro e
            rw [List.nodup_append] at hndC
            rcases List.mem_append.mp hb' with hm | hm
            · exact (List.nodup_cons.mp hndC.1).1 (e ▸ hm)
            · exact htl0 (((List.mem_singleton.mp hm).symm).trans e)
          rw [hmem']
          by_cases hbt : b = t
          · rw [hbt, hmt]
          · rw [hoth b hbt hbl0]
      · show ((dropList s).mem t).next = l0
        rw [hmem', hmt]
      · show ((dropList s).mem l0).prev = t
        rw [hmem', hml0]
    · rw [hgetlast, hmem', hml0]
    · rw [hgetlast, hmem', hmt]

/-! ### The claims -/

/-- C1: for every sequence of public operations (`List::new`,
`push_head`, `push_tail`, handle unlink, handle drop), the ring
invariant holds in the resulting state: every allocated node `N`
satisfies `N.next.prev = N` and `N.prev.next = N`, and the list is empty
(the sentinel is the only allocated node) exactly when the sentinel's
successor — equivalently its predecessor — is the sentinel itself. -/
theorem C1_ring_invariant (T : Type) (ops : List (Op T)) :
    RingInv (run (List.new : State T) ops) ∧
    (((run (List.new : State T) ops).mem (run (List.new : State T) ops).sentinel).next
        = (run (List.new : State T) ops).sentinel
      ↔ ∀ b ∈ (run (List.new : State T) ops).dom, b = (run (List.new : State T) ops).sentinel) ∧
    (((run (List.new : State T) ops).mem (run (List.new : State T) ops).sentinel).prev
        = (run (List.new : State T) ops).sentinel
      ↔ ∀ b ∈ (run (List.new : State T) ops).dom, b = (run (List.new : State T) ops).sentinel) := by
  obtain ⟨L, hinv⟩ := run_inv new_inv ops
  exact ⟨RingInv_of_inv hinv,
    (empty_iff_next hinv).trans (empty_iff_dom hinv),
    (empty_iff_prev hinv).trans (empty_iff_dom hinv)⟩

/-- C2 counterexample: on the explicit unlink path the neighbour-rewiring
step (`Link::unlink`) runs twice on the very node being removed — once
inside `into_inner` and once more when the consumed handle is dropped —
so it does not run exactly once. -/
theorem C2_counterexample :
    (ListHandle.unlinkC
        ({ base := (push_head (List.new : State Nat) 1).1, cnt := fun _ => 0 } : CState Nat)
        (push_head (List.new : State Nat) 1).2).1.cnt
      (push_head (List.new : State Nat) 1).2 = 2 ∧ (2 : Nat) ≠ 1 := by
  constructor
  · rfl
  · decide

/-- C2 amended: on the explicit unlink path the neighbour-rewiring step
runs exactly twice on the removed node (not once), but the second run
rewrites the same two fields with the same values, so the resulting
state is that of a single unlink; dropping without unlink runs it
once. -/
theorem C2_amended (T : Type) (s : State T) (c : Nat → Nat) (a : Nat) :
    (ListHandle.unlinkC ⟨s, c⟩ a).1.cnt a = c a + 2 ∧
    (Handle.dropC (⟨s, c⟩ : CState T) a).cnt a = c a + 1 ∧
    (ListHandle.unlinkC ⟨s, c⟩ a).1.base = (ListHandle.unlink s a).1 ∧
    Link.unlink (Link.unlink s a) a = Link.unlink s a := by
  refine ⟨?_, ?_, rfl, unlink_unlink s a⟩
  · simp [ListHandle.unlinkC, Handle.into_innerC, Handle.dropC, Link.unlinkC]
  · simp [Handle.dropC, Link.unlinkC]

/-- C3 counterexample: on the one-element list `[1]`, the mutable
iterator yields the element, then the absent result at the sentinel, and
then — because `IterMut::next` advances past the sentinel before testing
the value — yields the head element again: it is not permanently
exhausted. -/
theorem C3_counterexample :
    (IterMut.next (push_head (List.new : State Nat) 1).1
        (List.iter_mut (push_head (List.new : State Nat) 1).1)).1 = some 1 ∧
    (IterMut.next (push_head (List.new : State Nat) 1).1
        (IterMut.next (push_head (List.new : State Nat) 1).1
          (List.iter_mut (push_head (List.new : State Nat) 1).1)).2).1 = none ∧
    (IterMut.next (push_head (List.new : State Nat) 1).1
        (IterMut.next (push_head (List.new : State Nat) 1).1
          (IterMut.next (push_head (List.new : State Nat) 1).1
            (List.iter_mut (push_head (List.new : State Nat) 1).1)).2).2).1 = some 1 := by
  decide

/-- C3 amended: `Iter` traverses the current elements in successor order
starting just after the sentinel and ending at the sentinel, and once it
has returned the absent result every later call returns it too; `IterMut`
however is not permanently exhausted: at the sentinel it returns the
absent result but advances, and on a non-empty list the following call
yields the head element again. -/
theorem C3_iterators (T : Type) (s : State T) (L : List Nat) (hinv : Inv s L) (it : Nat)
    (hit : (Iter.next s it).1 = none) (hne : L ≠ []) :
    (∀ fuel, L.length < fuel →
      iterCollect s (List.iter s) fuel = L.filterMap (fun b => (s.mem b).value)) ∧
    (∀ k, (Iter.next s (Iter.advanceN s it k)).1 = none) ∧
    (IterMut.next s (some s.sentinel)).1 = none ∧
    (IterMut.next s ((IterMut.next s (some s.sentinel)).2)).1
      = some ((s.mem s.sentinel).next) := by
  obtain ⟨h1, h2, h3⟩ := iterMut_restarts hinv hne
  exact ⟨fun fuel hf => iterCollect_inv hinv fuel hf,
    fun k => (iter_fused s it hit k).2, h1, h3⟩

theorem C3_iterators_witness :
    Inv (push_head (List.new : State Nat) 1).1 [1] ∧
    (Iter.next (push_head (List.new : State Nat) 1).1 0).1 = none ∧
    ([1] : List Nat) ≠ [] ∧
    (∀ k, (Iter.next (push_head (List.new : State Nat) 1).1
        (Iter.advanceN (push_head (List.new : State Nat) 1).1 0 k)).1 = none) :=
  ⟨by decide, by decide, by decide,
    fun k => (C3_iterators Nat (push_head (List.new : State Nat) 1).1 [1]
      (by decide) 0 (by decide) (by decide)).2.1 k⟩

/-- C4: `unlink()` hands back exactly the stored value; in particular,
pushing `v` at either end and then unlinking the returned handle yields
`some v`, for any value type. -/
theorem C4_roundtrip (T : Type) (s : State T) (v : T) (a : Nat) :
    (ListHandle.unlink s a).2 = (s.mem a).value ∧
    (ListHandle.unlink (push_head s v).1 (push_head s v).2).2 = some v ∧
    (ListHandle.unlink (push_tail s v).1 (push_tail s v).2).2 = some v := by
  refine ⟨handle_unlink_value s a, ?_, ?_⟩
  · rw [handle_unlink_value]
    show ((insert_after (Handle.new s v).1 (Handle.new s v).1.sentinel
      (Handle.new s v).2).mem (Handle.new s v).2).value = some v
    rw [insert_after_value]
    simp [Handle.new, Link.new]
  · rw [handle_unlink_value]
    show ((insert_after (Handle.new s v).1
      (((Handle.new s v).1.mem (Handle.new s v).1.sentinel).prev)
      (Handle.new s v).2).mem (Handle.new s v).2).value = some v
    rw [insert_after_value]
    simp [Handle.new, Link.new]

/-- C5: the concrete scenario from the specification: `push_head 1`,
`push_tail 2`, `push_tail 3` gives head 1, tail 3, iteration `[1, 2, 3]`;
unlinking the handle of 1 leaves head 2, tail 3, iteration `[2, 3]`;
unlinking the handle of 3 leaves head = tail = 2; unlinking the last
handle leaves both peeks absent. -/
theorem C5_scenario :
    peek_head (push_tail (push_tail (push_head (List.new : State Nat) 1).1 2).1 3).1 = some 1 ∧
    peek_tail (push_tail (push_tail (push_head (List.new : State Nat) 1).1 2).1 3).1 = some 3 ∧
    List.iterToList (push_tail (push_tail (push_head (List.new : State Nat) 1).1 2).1 3).1
      = [1, 2, 3] ∧
    peek_head (ListHandle.unlink
      (push_tail (push_tail (push_head (List.new : State Nat) 1).1 2).1 3).1
      (push_head (List.new : State Nat) 1).2).1 = some 2 ∧
    peek_tail (ListHandle.unlink
      (push_tail (push_tail (push_head (List.new : State Nat) 1).1 2).1 3).1
      (push_head (List.new : State Nat) 1).2).1 = some 3 ∧
    List.iterToList (ListHandle.unlink
      (push_tail (push_tail (push_head (List.new : State Nat) 1).1 2).1 3).1
      (push_head (List.new : State Nat) 1).2).1 = [2, 3] ∧
    peek_head (ListHandle.unlink (ListHandle.unlink
      (push_tail (push_tail (push_head (List.new : State Nat) 1).1 2).1 3).1
      (push_head (List.new : State Nat) 1).2).1
      (push_tail (push_tail (push_head (List.new : State Nat) 1).1 2).1 3).2).1 = some 2 ∧
    peek_tail (ListHandle.unlink (ListHandle.unlink
      (push_tail (push_tail (push_head (List.new : State Nat) 1).1 2).1 3).1
      (push_head (List.new : State Nat) 1).2).1
      (push_tail (push_tail (push_head (List.new : State Nat) 1).1 2).1 3).2).1 = some 2 ∧
    peek_head (ListHandle.unlink (ListHandle.unlink (ListHandle.unlink
      (push_tail (push_tail (push_head (List.new : State Nat) 1).1 2).1 3).1
      (push_head (List.new : State Nat) 1).2).1
      (push_tail (push_tail (push_head (List.new : State Nat) 1).1 2).1 3).2).1
      (push_tail (push_head (List.new : State Nat) 1).1 2).2).1 = none ∧
    peek_tail (ListHandle.unlink (ListHandle.unlink (ListHandle.unlink
      (push_tail (push_tail (push_head (List.new : State Nat) 1).1 2).1 3).1
      (push_head (List.new : State Nat) 1).2).1
      (push_tail (push_tail (push_head (List.new : State Nat) 1).1 2).1 3).2).1
      (push_tail (push_head (List.new : State Nat) 1).1 2).2).1 = none := by
  decide

/-- C6: dropping a handle without unlinking has exactly the observable
effect of an explicit unlink — same allocated set, same sentinel, same
surviving cells, the ring invariant preserved for the remaining nodes —
the only difference being that the stored value is discarded instead of
returned. -/
theorem C6_drop_equiv_unlink (T : Type) (s : State T) (L : List Nat) (a : Nat)
    (hinv : Inv s L) (ha : a ∈ L) :
    ObsEq (Handle.drop s a) (ListHandle.unlink s a).1 ∧
    (ListHandle.unlink s a).2 = (s.mem a).value ∧
    Inv (Handle.drop s a) (L.erase a) ∧
    Inv (ListHandle.unlink s a).1 (L.erase a) := by
  have hdomnd : s.dom.Nodup := (hinv.2.2.1.nodup_iff).mpr hinv.2.1
  exact ⟨drop_unlink_obsEq s a hdomnd, handle_unlink_value s a,
    drop_inv hinv ha, unlink_inv hinv ha⟩

theorem C6_drop_equiv_unlink_witness :
    Inv (push_head (List.new : State Nat) 1).1 [1] ∧ 1 ∈ ([1] : List Nat) ∧
    ObsEq (Handle.drop (push_head (List.new : State Nat) 1).1 1)
      (ListHandle.unlink (push_head (List.new : State Nat) 1).1 1).1 :=
  ⟨by decide, by decide,
    (C6_drop_equiv_unlink Nat (push_head (List.new : State Nat) 1).1 [1] 1
      (by decide) (by decide)).1⟩

/-- C7: the peeks read the value of the node just after (resp. just
before) the sentinel, the mutable variants read the same thing, and the
result is absent exactly when that neighbour is the sentinel itself,
i.e. exactly when the list is empty. -/
theorem C7_peeks (T : Type) (s : State T) (L : List Nat) (hinv : Inv s L) :
    peek_head s = (s.mem ((s.mem s.sentinel).next)).value ∧
    peek_tail s = (s.mem ((s.mem s.sentinel).prev)).value ∧
    peek_head_mut s = peek_head s ∧
    peek_tail_mut s = peek_tail s ∧
    (peek_head s = none ↔ (s.mem s.sentinel).next = s.sentinel) ∧
    (peek_tail s = none ↔ (s.mem s.sentinel).prev = s.sentinel) ∧
    (peek_head s = none ↔ L = []) ∧
    (peek_tail s = none ↔ L = []) := by
  have hp := peek_inv hinv
  exact ⟨rfl, rfl, rfl, rfl, hp.1, hp.2.1, hp.2.2.1, hp.2.2.2⟩

theorem C7_peeks_witness :
    Inv (List.new : State Nat) [] ∧
    (peek_head (List.new : State Nat) = none ↔ ([] : List Nat) = []) :=
  ⟨by decide, (C7_peeks Nat (List.new : State Nat) [] (by decide)).2.2.2.2.2.2.1⟩

/-- C8: splicing a fresh node after an anchor sets exactly four
reference fields — the new node's two links, the anchor's successor and
the old successor's predecessor — and leaves every other link field and
every stored value unchanged. -/
theorem C8_insert_after_frame (T : Type) (s : State T) (after h : Nat)
    (h1 : h ≠ after) (h2 : h ≠ (s.mem after).next) :
    ((insert_after s after h).mem h).prev = after ∧
    ((insert_after s after h).mem h).next = (s.mem after).next ∧
    ((insert_after s after h).mem after).next = h ∧
    ((insert_after s after h).mem ((s.mem after).next)).prev = h ∧
    (∀ b, ((insert_after s after h).mem b).value = (s.mem b).value) ∧
    (∀ b, b ≠ h → b ≠ after → b ≠ (s.mem after).next →
      (insert_after s after h).mem b = s.mem b) ∧
    ((s.mem after).next ≠ after →
      ((insert_after s after h).mem after).prev = (s.mem after).prev ∧
      ((insert_after s after h).mem ((s.mem after).next)).next
        = (s.mem ((s.mem after).next)).next) ∧
    (insert_after s after h).dom = s.dom ∧
    (insert_after s after h).sentinel = s.sentinel ∧
    (insert_after s after h).fresh = s.fresh := by
  have hm := insert_after_mem s h1 h2
  refine ⟨?_, ?_, ?_, ?_, insert_after_value s after h, ?_, ?_, rfl, rfl, rfl⟩
  · rw [hm h, if_pos rfl]
  · rw [hm h, if_pos rfl]
  · rw [hm after, if_neg (Ne.symm h1), if_pos rfl]
    split_ifs <;> rfl
  · rw [hm ((s.mem after).next), if_neg (Ne.symm h2)]
    by_cases e : (s.mem after).next = after
    · rw [if_pos e, if_pos e]
    · rw [if_neg e, if_pos rfl]
  · intro b hb1 hb2 hb3
    rw [hm b, if_neg hb1, if_neg hb2, if_neg hb3]
  · intro hna
    constructor
    · rw [hm after, if_neg (Ne.symm h1), if_pos rfl, if_neg hna]
    · rw [hm ((s.mem after).next), if_neg (Ne.symm h2), if_neg hna, if_pos rfl]

theorem C8_insert_after_frame_witness :
    (1 : Nat) ≠ 0 ∧ (1 : Nat) ≠ ((List.new : State Nat).mem 0).next ∧
    ((insert_after (List.new : State Nat) 0 1).mem 1).prev = 0 :=
  ⟨by decide, by decide,
    (C8_insert_after_frame Nat (List.new : State Nat) 0 1 (by decide) (by decide)).1⟩

/-- C9: a single mutable-iteration pass over `[1, 2, 3]` assigning
`3, 2, 1` in traversal order replaces the values in place — afterwards
`as_ref` on the three original handles answers `3, 2, 1` — without
changing any link field of any allocated node. -/
theorem C9_mut_iteration :
    ListHandle.as_ref
      (iterMutAssign (push_tail (push_tail (push_head (List.new : State Nat) 1).1 2).1 3).1
        (List.iter_mut (push_tail (push_tail (push_head (List.new : State Nat) 1).1 2).1 3).1)
        3 (push_tail (push_tail (push_head (List.new : State Nat) 1).1 2).1 3).1.dom.length)
      (push_head (List.new : State Nat) 1).2 = some 3 ∧
    ListHandle.as_ref
      (iterMutAssign (push_tail (push_tail (push_head (List.new : State Nat) 1).1 2).1 3).1
        (List.iter_mut (push_tail (push_tail (push_head (List.new : State Nat) 1).1 2).1 3).1)
        3 (push_tail (push_tail (push_head (List.new : State Nat) 1).1 2).1 3).1.dom.length)
      (push_tail (push_head (List.new : State Nat) 1).1 2).2 = some 2 ∧
    ListHandle.as_ref
      (iterMutAssign (push_tail (push_tail (push_head (List.new : State Nat) 1).1 2).1 3).1
        (List.iter_mut (push_tail (push_tail (push_head (List.new : State Nat) 1).1 2).1 3).1)
        3 (push_tail (push_tail (push_head (List.new : State Nat) 1).1 2).1 3).1.dom.length)
      (push_tail (push_tail (push_head (List.new : State Nat) 1).1 2).1 3).2 = some 1 ∧
    (iterMutAssign (push_tail (push_tail (push_head (List.new : State Nat) 1).1 2).1 3).1
        (List.iter_mut (push_tail (push_tail (push_head (List.new : State Nat) 1).1 2).1 3).1)
        3 (push_tail (push_tail (push_head (List.new : State Nat) 1).1 2).1 3).1.dom.length).dom
      = (push_tail (push_tail (push_head (List.new : State Nat) 1).1 2).1 3).1.dom ∧
    (∀ b ∈ (push_tail (push_tail (push_head (List.new : State Nat) 1).1 2).1 3).1.dom,
      ((iterMutAssign (push_tail (push_tail (push_head (List.new : State Nat) 1).1 2).1 3).1
          (List.iter_mut (push_tail (push_tail (push_head (List.new : State Nat) 1).1 2).1 3).1)
          3 (push_tail (push_tail (push_head (List.new : State Nat) 1).1 2).1 3).1.dom.length).mem
          b).next
        = ((push_tail (push_tail (push_head (List.new : State Nat) 1).1 2).1 3).1.mem b).next ∧
      ((iterMutAssign (push_tail (push_tail (push_head (List.new : State Nat) 1).1 2).1 3).1
          (List.iter_mut (push_tail (push_tail (push_head (List.new : State Nat) 1).1 2).1 3).1)
          3 (push_tail (push_tail (push_head (List.new : State Nat) 1).1 2).1 3).1.dom.length).mem
          b).prev
        = ((push_tail (push_tail (push_head (List.new : State Nat) 1).1 2).1 3).1.mem b).prev) := by
  decide

/-- C10: dropping the `List` runs the handle-drop on the sentinel only:
the sentinel leaves the allocated set, the previous head and tail become
direct neighbours, and the outstanding handles' nodes keep their values
and form a sentinel-less ring still satisfying both cross-reference
equations; `as_ref` and `unlink` on those handles still deliver the
stored values. -/
theorem C10_list_drop (T : Type) (s : State T) (l0 : Nat) (L' : List Nat)
    (hinv : Inv s (l0 :: L')) :
    (dropList s).dom = s.dom.erase s.sentinel ∧
    (∀ a ∈ l0 :: L', ListHandle.as_ref (dropList s) a = ListHandle.as_ref s a) ∧
    (∀ a ∈ l0 :: L', ((dropList s).mem (((dropList s).mem a).next)).prev = a ∧
      ((dropList s).mem (((dropList s).mem a).prev)).next = a) ∧
    ((dropList s).mem l0).prev = (l0 :: L').getLast (List.cons_ne_nil l0 L') ∧
    ((dropList s).mem ((l0 :: L').getLast (List.cons_ne_nil l0 L'))).next = l0 ∧
    (∀ a ∈ l0 :: L', (ListHandle.unlink (dropList s) a).2 = (s.mem a).value) := by
  obtain ⟨hch, hvals, hdom, hp1, hp2⟩ := dropList_spec hinv
  refine ⟨hdom, fun a _ => hvals a, ?_, hp1, hp2, ?_⟩
  · intro a ha
    exact cycle_crossref hch a ha
  · intro a ha
    rw [handle_unlink_value]
    exact hvals a

theorem C10_list_drop_witness :
    Inv (push_head (List.new : State Nat) 1).1 [1] ∧
    (dropList (push_head (List.new : State Nat) 1).1).dom
      = (push_head (List.new : State Nat) 1).1.dom.erase
          (push_head (List.new : State Nat) 1).1.sentinel :=
  ⟨by decide, (C10_list_drop Nat (push_head (List.new : State Nat) 1).1 1 [] (by decide)).1⟩

end SentinelList
